import Mathlib

/-!
Verification of the geometry engine of `tikzplots.py`: the parametric
segment clipper `_get_intersections`, the planar triangle-mesh topology
builder `_get_planar_tri_edges`, and the contour tracer
`_get_2d_tri_contour_lines`.  Python floats are modelled as rationals,
Python `None` results as `Option.none`, and Python list indexing
(including its negative-index wrap-around and its `IndexError`) through
an explicit partial indexing function.
-/

namespace Tikzplots

/-- Parametric clipping, the final `umin > umax` test of
`_get_intersections` (Python lines 151-154). -/
def clip_check (umin umax : ℚ) : Option (ℚ × ℚ) :=
  if umin > umax then none else some (umin, umax)

/-- The y-axis narrowing pass of `_get_intersections`
(Python lines 141-149), followed by the final check. -/
def clip_y (y1 y2 ymin ymax umin umax : ℚ) : Option (ℚ × ℚ) :=
  let dy := y2 - y1
  if dy > 0 then
    clip_check (max umin ((ymin - y1)/dy)) (min umax ((ymax - y1)/dy))
  else if dy < 0 then
    clip_check (max umin ((ymax - y1)/dy)) (min umax ((ymin - y1)/dy))
  else if y1 < ymin ∨ y1 > ymax then none
  else clip_check umin umax

/-- `_get_intersections(x1, x2, y1, y2, xmin, xmax, ymin, ymax)`:
Liang-Barsky style clipping of the segment (x1,y1)-(x2,y2) against the
rectangle [xmin,xmax] × [ymin,ymax]; `none` models Python's `None`. -/
def get_intersections (x1 x2 y1 y2 xmin xmax ymin ymax : ℚ) : Option (ℚ × ℚ) :=
  let dx := x2 - x1
  if dx > 0 then
    clip_y y1 y2 ymin ymax (max 0 ((xmin - x1)/dx)) (min 1 ((xmax - x1)/dx))
  else if dx < 0 then
    clip_y y1 y2 ymin ymax (max 0 ((xmax - x1)/dx)) (min 1 ((xmin - x1)/dx))
  else if x1 < xmin ∨ x1 > xmax then none
  else clip_y y1 y2 ymin ymax 0 1

theorem clip_check_of_le {umin umax : ℚ} (h : umin ≤ umax) :
    clip_check umin umax = some (umin, umax) := by
  simp [clip_check, not_lt.mpr h]

theorem clip_y_inside {y1 y2 ymin ymax : ℚ}
    (h1 : ymin ≤ y1) (h1' : y1 ≤ ymax) (h2 : ymin ≤ y2) (h2' : y2 ≤ ymax) :
    clip_y y1 y2 ymin ymax 0 1 = some (0, 1) := by
  unfold clip_y
  rcases lt_trichotomy (y2 - y1) 0 with hdy | hdy | hdy
  · rw [if_neg (by linarith), if_pos hdy]
    have ha : (ymax - y1) / (y2 - y1) ≤ 0 :=
      div_nonpos_iff.mpr (Or.inl ⟨by linarith, le_of_lt hdy⟩)
    have hb : (1 : ℚ) ≤ (ymin - y1) / (y2 - y1) :=
      (one_le_div_of_neg hdy).mpr (by linarith)
    rw [max_eq_left ha, min_eq_left hb]
    exact clip_check_of_le (by norm_num)
  · rw [if_neg (by linarith), if_neg (by linarith),
      if_neg (by push_neg; exact ⟨h1, h1'⟩)]
    exact clip_check_of_le (by norm_num)
  · rw [if_pos hdy]
    have ha : (ymin - y1) / (y2 - y1) ≤ 0 :=
      div_nonpos_iff.mpr (Or.inr ⟨by linarith, le_of_lt hdy⟩)
    have hb : (1 : ℚ) ≤ (ymax - y1) / (y2 - y1) :=
      (one_le_div hdy).mpr (by linarith)
    rw [max_eq_left ha, min_eq_left hb]
    exact clip_check_of_le (by norm_num)

/-- C4: a segment whose two endpoints both lie in the closed rectangle is
returned with the full parametric interval [0, 1]. -/
theorem get_intersections_inside
    (x1 x2 y1 y2 xmin xmax ymin ymax : ℚ)
    (hx1 : xmin ≤ x1) (hx1' : x1 ≤ xmax) (hx2 : xmin ≤ x2) (hx2' : x2 ≤ xmax)
    (hy1 : ymin ≤ y1) (hy1' : y1 ≤ ymax) (hy2 : ymin ≤ y2) (hy2' : y2 ≤ ymax) :
    get_intersections x1 x2 y1 y2 xmin xmax ymin ymax = some (0, 1) := by
  unfold get_intersections
  rcases lt_trichotomy (x2 - x1) 0 with hdx | hdx | hdx
  · rw [if_neg (by linarith), if_pos hdx]
    have ha : (xmax - x1) / (x2 - x1) ≤ 0 :=
      div_nonpos_iff.mpr (Or.inl ⟨by linarith, le_of_lt hdx⟩)
    have hb : (1 : ℚ) ≤ (xmin - x1) / (x2 - x1) :=
      (one_le_div_of_neg hdx).mpr (by linarith)
    rw [max_eq_left ha, min_eq_left hb]
    exact clip_y_inside hy1 hy1' hy2 hy2'
  · rw [if_neg (by linarith), if_neg (by linarith),
      if_neg (by push_neg; exact ⟨hx1, hx1'⟩)]
    exact clip_y_inside hy1 hy1' hy2 hy2'
  · rw [if_pos hdx]
    have ha : (xmin - x1) / (x2 - x1) ≤ 0 :=
      div_nonpos_iff.mpr (Or.inr ⟨by linarith, le_of_lt hdx⟩)
    have hb : (1 : ℚ) ≤ (xmax - x1) / (x2 - x1) :=
      (one_le_div hdx).mpr (by linarith)
    rw [max_eq_left ha, min_eq_left hb]
    exact clip_y_inside hy1 hy1' hy2 hy2'

/-- Witness for C4 at a concrete segment and rectangle. -/
theorem get_intersections_inside_witness :
    get_intersections (1/4) (3/4) (1/3) (2/3) 0 1 0 1 = some (0, 1) :=
  get_intersections_inside (1/4) (3/4) (1/3) (2/3) 0 1 0 1
    (by norm_num) (by norm_num) (by norm_num) (by norm_num)
    (by norm_num) (by norm_num) (by norm_num) (by norm_num)

/-- C5 counterexample: a degenerate rectangle (xmin > xmax) is not
surfaced as a distinct error; the clipper silently returns `none`, the
very same value that an ordinary non-intersecting query (second
conjunct) produces. -/
theorem get_intersections_degenerate_counterexample :
    get_intersections 0 1 0 1 1 0 0 1 = none ∧
    get_intersections 5 6 5 6 0 1 0 1 = none := by
  constructor <;> norm_num [get_intersections, clip_y, clip_check]

theorem clip_y_degenerate {y1 y2 ymin ymax umin umax : ℚ} (h : ymax < ymin) :
    clip_y y1 y2 ymin ymax umin umax = none := by
  unfold clip_y
  rcases lt_trichotomy (y2 - y1) 0 with hdy | hdy | hdy
  · rw [if_neg (by linarith), if_pos hdy]
    have key : (ymin - y1) / (y2 - y1) < (ymax - y1) / (y2 - y1) :=
      div_lt_div_of_neg_of_lt hdy (by linarith)
    have : min umax ((ymin - y1) / (y2 - y1)) < max umin ((ymax - y1) / (y2 - y1)) :=
      lt_of_le_of_lt (min_le_right _ _) (lt_of_lt_of_le key (le_max_right _ _))
    simp [clip_check, this]
  · rw [if_neg (by linarith), if_neg (by linarith), if_pos (by
      by_contra hc
      push_neg at hc
      linarith [hc.1, hc.2])]
  · rw [if_pos hdy]
    have key : (ymax - y1) / (y2 - y1) < (ymin - y1) / (y2 - y1) :=
      (div_lt_div_iff_of_pos_right hdy).mpr (by linarith)
    have : min umax ((ymax - y1) / (y2 - y1)) < max umin ((ymin - y1) / (y2 - y1)) :=
      lt_of_le_of_lt (min_le_right _ _) (lt_of_lt_of_le key (le_max_right _ _))
    simp [clip_check, this]

theorem clip_y_bounds_none {y1 y2 ymin ymax umin umax : ℚ} (h : umax < umin) :
    clip_y y1 y2 ymin ymax umin umax = none := by
  unfold clip_y
  rcases lt_trichotomy (y2 - y1) 0 with hdy | hdy | hdy
  · rw [if_neg (by linarith), if_pos hdy]
    have : min umax ((ymin - y1) / (y2 - y1)) < max umin ((ymax - y1) / (y2 - y1)) :=
      lt_of_le_of_lt (min_le_left _ _) (lt_of_lt_of_le h (le_max_left _ _))
    simp [clip_check, this]
  · by_cases hy : y1 < ymin ∨ y1 > ymax
    · rw [if_neg (by linarith), if_neg (by linarith), if_pos hy]
    · rw [if_neg (by linarith), if_neg (by linarith), if_neg hy]
      simp [clip_check, h]
  · rw [if_pos hdy]
    have : min umax ((ymax - y1) / (y2 - y1)) < max umin ((ymin - y1) / (y2 - y1)) :=
      lt_of_le_of_lt (min_le_left _ _) (lt_of_lt_of_le h (le_max_left _ _))
    simp [clip_check, this]

/-- C5 amended: for a degenerate rectangle (xmin > xmax or ymin > ymax)
the clipper always returns the ordinary no-intersection result `none`
(Python `None`), for every segment; it raises no distinct error. -/
theorem get_intersections_degenerate
    (x1 x2 y1 y2 xmin xmax ymin ymax : ℚ)
    (h : xmax < xmin ∨ ymax < ymin) :
    get_intersections x1 x2 y1 y2 xmin xmax ymin ymax = none := by
  unfold get_intersections
  rcases h with h | h
  · rcases lt_trichotomy (x2 - x1) 0 with hdx | hdx | hdx
    · rw [if_neg (by linarith), if_pos hdx]
      have key : (xmin - x1) / (x2 - x1) < (xmax - x1) / (x2 - x1) :=
        div_lt_div_of_neg_of_lt hdx (by linarith)
      have hlt : min 1 ((xmin - x1) / (x2 - x1)) < max 0 ((xmax - x1) / (x2 - x1)) :=
        lt_of_le_of_lt (min_le_right _ _) (lt_of_lt_of_le key (le_max_right _ _))
      exact clip_y_bounds_none hlt
    · rw [if_neg (by linarith), if_neg (by linarith), if_pos (by
        by_contra hc
        push_neg at hc
        linarith [hc.1, hc.2])]
    · rw [if_pos hdx]
      have key : (xmax - x1) / (x2 - x1) < (xmin - x1) / (x2 - x1) :=
        (div_lt_div_iff_of_pos_right hdx).mpr (by linarith)
      have hlt : min 1 ((xmax - x1) / (x2 - x1)) < max 0 ((xmin - x1) / (x2 - x1)) :=
        lt_of_le_of_lt (min_le_right _ _) (lt_of_lt_of_le key (le_max_right _ _))
      exact clip_y_bounds_none hlt
  · rcases lt_trichotomy (x2 - x1) 0 with hdx | hdx | hdx
    · rw [if_neg (by linarith), if_pos hdx]
      exact clip_y_degenerate h
    · by_cases hx : x1 < xmin ∨ x1 > xmax
      · rw [if_neg (by linarith), if_neg (by linarith), if_pos hx]
      · rw [if_neg (by linarith), if_neg (by linarith), if_neg hx]
        exact clip_y_degenerate h
    · rw [if_pos hdx]
      exact clip_y_degenerate h

/-- Witness for the amended C5 at a concrete degenerate rectangle. -/
theorem get_intersections_degenerate_witness :
    get_intersections 0 1 0 1 1 0 0 1 = none :=
  get_intersections_degenerate 0 1 0 1 1 0 0 1 (Or.inl (by norm_num))

/-- A triangle: Python's 3-element index list, indices arbitrary `int`s. -/
abbrev Tri := Int × Int × Int

/-- `_get_tri_edges(tri)`: the three directed edges
`[[tri[1], tri[2]], [tri[2], tri[0]], [tri[0], tri[1]]]`. -/
def get_tri_edges (t : Tri) : List (Int × Int) :=
  [(t.2.1, t.2.2), (t.2.2, t.1), (t.1, t.2.1)]

/-- Python list index resolution for a list of length `n`: a value in
[0, n) is used as is, a value in [-n, 0) wraps around (`l[-1]` is the
last element), anything else raises `IndexError`, modelled as `none`. -/
def pyIdx (n : Nat) (i : Int) : Option Nat :=
  if 0 ≤ i ∧ i < (n : Int) then some i.toNat
  else if -(n : Int) ≤ i ∧ i < 0 then some (i + n).toNat
  else none

/-- Fetch `l[i]` with Python index semantics; the out-of-range default 0
is unreachable on the runs the theorems below quantify over. -/
def pyNth (l : List ℚ) (i : Int) : ℚ :=
  match pyIdx l.length i with
  | some j => l.getD j 0
  | none => 0

/-- The strict-straddle crossing test of `_get_2d_tri_contour_lines`
(Python lines 226-227) on the two endpoint values `v0 = vals[e[0]]`,
`v1 = vals[e[1]]` of an edge. -/
def crossB (lev v0 v1 : ℚ) : Bool :=
  (decide (v1 < lev) && decide (v0 > lev)) || (decide (v0 < lev) && decide (v1 > lev))

/-- The crossing test applied to an edge of the mesh. -/
def edge_cross (vals : List ℚ) (lev : ℚ) (e : Int × Int) : Bool :=
  crossB lev (pyNth vals e.1) (pyNth vals e.2)

/-- Number of crossing edges of a triangle (the `count` accumulated at
Python lines 222-232). -/
def tri_cross_count (vals : List ℚ) (lev : ℚ) (t : Tri) : Nat :=
  ((get_tri_edges t).filter (edge_cross vals lev)).length

theorem crossB_lt_gt {lev u v : ℚ} (hu : u < lev) (hv : lev < v) :
    crossB lev u v = true := by
  simp [crossB, gt_iff_lt, hu, hv]

theorem crossB_gt_lt {lev u v : ℚ} (hu : lev < u) (hv : v < lev) :
    crossB lev u v = true := by
  simp [crossB, gt_iff_lt, hu, hv]

theorem crossB_lt_lt {lev u v : ℚ} (hu : u < lev) (hv : v < lev) :
    crossB lev u v = false := by
  simp [crossB, gt_iff_lt, hu.asymm, hv.asymm, hu, hv]

theorem crossB_gt_gt {lev u v : ℚ} (hu : lev < u) (hv : lev < v) :
    crossB lev u v = false := by
  simp [crossB, gt_iff_lt, hu.asymm, hv.asymm, hu, hv]

theorem tri_cross_count_eq (vals : List ℚ) (lev : ℚ) (t : Tri) :
    tri_cross_count vals lev t =
      ((if crossB lev (pyNth vals t.2.1) (pyNth vals t.2.2) then 1 else 0) +
       (if crossB lev (pyNth vals t.2.2) (pyNth vals t.1) then 1 else 0) +
       (if crossB lev (pyNth vals t.1) (pyNth vals t.2.1) then 1 else 0) : Nat) := by
  simp only [tri_cross_count, get_tri_edges, edge_cross]
  cases hbc : crossB lev (pyNth vals t.2.1) (pyNth vals t.2.2) <;>
    cases hca : crossB lev (pyNth vals t.2.2) (pyNth vals t.1) <;>
      cases hab : crossB lev (pyNth vals t.1) (pyNth vals t.2.1) <;>
        simp [List.filter, edge_cross, hbc, hca, hab]

/-- C8: when none of the three vertex field values equals the level, the
triangle has 0 or exactly 2 crossing edges. -/
theorem tri_cross_count_zero_or_two
    (vals : List ℚ) (lev : ℚ) (t : Tri)
    (ha : pyNth vals t.1 ≠ lev) (hb : pyNth vals t.2.1 ≠ lev)
    (hc : pyNth vals t.2.2 ≠ lev) :
    tri_cross_count vals lev t = 0 ∨ tri_cross_count vals lev t = 2 := by
  rw [tri_cross_count_eq]
  rcases ha.lt_or_lt with h1 | h1 <;> rcases hb.lt_or_lt with h2 | h2 <;>
    rcases hc.lt_or_lt with h3 | h3
  · rw [crossB_lt_lt h2 h3, crossB_lt_lt h3 h1, crossB_lt_lt h1 h2]; left; decide
  · rw [crossB_lt_gt h2 h3, crossB_gt_lt h3 h1, crossB_lt_lt h1 h2]; right; decide
  · rw [crossB_gt_lt h2 h3, crossB_lt_lt h3 h1, crossB_lt_gt h1 h2]; right; decide
  · rw [crossB_gt_gt h2 h3, crossB_gt_lt h3 h1, crossB_lt_gt h1 h2]; right; decide
  · rw [crossB_lt_lt h2 h3, crossB_lt_gt h3 h1, crossB_gt_lt h1 h2]; right; decide
  · rw [crossB_lt_gt h2 h3, crossB_gt_gt h3 h1, crossB_gt_lt h1 h2]; right; decide
  · rw [crossB_gt_lt h2 h3, crossB_lt_gt h3 h1, crossB_gt_gt h1 h2]; right; decide
  · rw [crossB_gt_gt h2 h3, crossB_gt_gt h3 h1, crossB_gt_gt h1 h2]; left; decide

/-- Witness for C8: the single test triangle with values 0, 1, 2 at
level 3/2 has exactly two crossing edges. -/
theorem tri_cross_count_zero_or_two_witness :
    tri_cross_count [0, 1, 2] (3/2) (0, 1, 2) = 0 ∨
    tri_cross_count [0, 1, 2] (3/2) (0, 1, 2) = 2 :=
  tri_cross_count_zero_or_two [0, 1, 2] (3/2) (0, 1, 2)
    (by norm_num [pyNth, pyIdx, List.getD, List.get?]) (by norm_num [pyNth, pyIdx, List.getD, List.get?])
    (by norm_num [pyNth, pyIdx, List.getD, List.get?])

/-- C9: an edge passing the strict-straddle test has distinct endpoint
values, so the divisor `vals[e[1]] - vals[e[0]]` of the interpolation
parameter is nonzero. -/
theorem edge_cross_divisor_ne_zero
    (vals : List ℚ) (lev : ℚ) (e : Int × Int)
    (h : edge_cross vals lev e = true) :
    pyNth vals e.2 - pyNth vals e.1 ≠ 0 := by
  simp only [edge_cross, crossB, Bool.or_eq_true, Bool.and_eq_true,
    decide_eq_true_eq, gt_iff_lt] at h
  rcases h with ⟨h1, h2⟩ | ⟨h1, h2⟩
  · have : pyNth vals e.2 < pyNth vals e.1 := lt_trans h1 h2
    exact sub_ne_zero_of_ne (ne_of_lt this)
  · have : pyNth vals e.1 < pyNth vals e.2 := lt_trans h1 h2
    exact sub_ne_zero_of_ne (ne_of_gt this)

/-- Witness for C9: the crossing edge (vertex 1, vertex 2) of the test
triangle at level 3/2 has a nonzero divisor. -/
theorem edge_cross_divisor_ne_zero_witness :
    pyNth [0, 1, 2] 2 - pyNth [0, 1, 2] 1 ≠ 0 :=
  edge_cross_divisor_ne_zero [0, 1, 2] (3/2) (1, 2)
    (by norm_num [edge_cross, crossB, pyNth, pyIdx, List.getD, List.get?])

/-- `node_to_tris[j].append(v)`, functional update of one bucket. -/
def appendAt (l : List (List Nat)) (j : Nat) (v : Nat) : List (List Nat) :=
  l.set j ((l.getD j []) ++ [v])

/-- Registering one triangle in the vertex-to-incident-triangles index
(`_get_planar_tri_edges`, Python lines 172-175); `none` models the
`IndexError` raised by an index outside Python range. -/
def addTri (npts : Nat) (l : List (List Nat)) (tIdx : Nat) (t : Tri) :
    Option (List (List Nat)) :=
  match pyIdx npts t.1 with
  | none => none
  | some a =>
    match pyIdx npts t.2.1 with
    | none => none
    | some b =>
      match pyIdx npts t.2.2 with
      | none => none
      | some c => some (appendAt (appendAt (appendAt l a tIdx) b tIdx) c tIdx)

/-- The `for index, tri in enumerate(tris)` loop filling `node_to_tris`. -/
def buildNTT (npts : Nat) : Nat → List Tri → List (List Nat) → Option (List (List Nat))
  | _, [], acc => some acc
  | idx, t :: ts, acc =>
    match addTri npts acc idx t with
    | none => none
    | some acc2 => buildNTT npts (idx + 1) ts acc2

/-- The vertex-to-incident-triangles index of `_get_planar_tri_edges`
(Python lines 167-175). -/
def node_to_tris (npts : Nat) (tris : List Tri) : Option (List (List Nat)) :=
  buildNTT npts 0 tris (List.replicate npts [])

/-- A `tri_to_edges` row, the Python list `[-1, -1, -1]` of edge ids. -/
abbrev EdgeIds := Int × Int × Int

def slotGet (r : EdgeIds) : Nat → Int
  | 0 => r.1
  | 1 => r.2.1
  | _ => r.2.2

def slotSet (r : EdgeIds) (i : Nat) (v : Int) : EdgeIds :=
  match i with
  | 0 => (v, r.2.1, r.2.2)
  | 1 => (r.1, v, r.2.2)
  | _ => (r.1, r.2.1, v)

/-- `tri_to_edges[t][i] = v`. -/
def setSlot (tte : List EdgeIds) (t i : Nat) (v : Int) : List EdgeIds :=
  tte.set t (slotSet (tte.getD t (-1, -1, -1)) i v)

/-- The unordered edge comparison of Python lines 193-194:
`(e1[0]==e2[0] and e1[1]==e2[1]) or (e1[1]==e2[0] and e1[0]==e2[1])`. -/
def uMatch (e1 e2 : Int × Int) : Bool :=
  (e1.1 == e2.1 && e1.2 == e2.2) || (e1.2 == e2.1 && e1.1 == e2.2)

/-- The inner `for e2_index, e2 in enumerate(...)` search with `break`:
first edge index of the triangle matching `e1`, if any. -/
def findEdgeIndex (t : Tri) (e1 : Int × Int) : Option Nat :=
  if uMatch e1 (t.2.1, t.2.2) then some 0
  else if uMatch e1 (t.2.2, t.1) then some 1
  else if uMatch e1 (t.1, t.2.1) then some 2
  else none

/-- The `for adj_index in node_to_tris[e1[0]]` search with `break`
(Python lines 190-203): first adjacent triangle (with its matching edge
slot) distinct from the current one that shares the unordered edge. -/
def findMatch (tris : List Tri) (tIdx : Nat) (e1 : Int × Int) :
    List Nat → Option (Nat × Nat)
  | [] => none
  | adj :: rest =>
    if adj = tIdx then findMatch tris tIdx e1 rest
    else
      match findEdgeIndex (tris.getD adj (0, 0, 0)) e1 with
      | some j => some (adj, j)
      | none => findMatch tris tIdx e1 rest

/-- The mutable state of the edge-numbering loop: `edges`,
`edge_to_tris` (second owner is an `int`, -1 for a boundary edge) and
`tri_to_edges`.  `num_edges` always equals `edges.length`. -/
structure TopoState where
  edges : List (Int × Int)
  edge_to_tris : List (Nat × Int)
  tri_to_edges : List EdgeIds

/-- `node_to_tris[i]` with Python index semantics. -/
def nttAt (ntt : List (List Nat)) (i : Int) : List Nat :=
  match pyIdx ntt.length i with
  | some j => ntt.getD j []
  | none => []

/-- The body of the edge-numbering loop for one slot `(tri_index,
e1_index)` (Python lines 186-209). -/
def processSlot (tris : List Tri) (ntt : List (List Nat)) (st : TopoState)
    (tIdx i : Nat) : TopoState :=
  let e1 := (get_tri_edges (tris.getD tIdx (0, 0, 0))).getD i (0, 0)
  if slotGet (st.tri_to_edges.getD tIdx (-1, -1, -1)) i < 0 then
    let ne : Int := st.edges.length
    match findMatch tris tIdx e1 (nttAt ntt e1.1) with
    | some (adj, j) =>
      { edges := st.edges ++ [e1]
        edge_to_tris := st.edge_to_tris ++ [(tIdx, (adj : Int))]
        tri_to_edges := setSlot (setSlot st.tri_to_edges tIdx i ne) adj j ne }
    | none =>
      { edges := st.edges ++ [e1]
        edge_to_tris := st.edge_to_tris ++ [(tIdx, -1)]
        tri_to_edges := setSlot st.tri_to_edges tIdx i ne }
  else st

/-- `_get_planar_tri_edges(npts, tris)`: returns
`(edges, tri_to_edges, edge_to_tris)`, or `none` when the Python code
raises while building `node_to_tris`. -/
def get_planar_tri_edges (npts : Nat) (tris : List Tri) :
    Option (List (Int × Int) × List EdgeIds × List (Nat × Int)) :=
  match node_to_tris npts tris with
  | none => none
  | some ntt =>
    let init : TopoState := ⟨[], [], tris.map (fun _ => (-1, -1, -1))⟩
    let fin := (List.range tris.length).foldl (fun st t =>
      (List.range 3).foldl (fun st i => processSlot tris ntt st t i) st) init
    some (fin.edges, fin.tri_to_edges, fin.edge_to_tris)

/-- Number of entries of the edge table equal, as an unordered pair, to
the edge `e`. -/
def countUEdge (es : List (Int × Int)) (e : Int × Int) : Nat :=
  (es.filter (fun p => uMatch p e)).length

/-- The `edge_to_tris` owner records attached to the edge-table entries
matching `e`. -/
def edge_owners (es : List (Int × Int)) (ett : List (Nat × Int))
    (e : Int × Int) : List (Nat × Int) :=
  ((es.zip ett).filter (fun q => uMatch q.1 e)).map (fun q => q.2)

/-- C3: for the unit square with corners v0=(0,0), v1=(1,0), v2=(1,1),
v3=(0,1) split along the diagonal v0-v2 into triangles (0,1,2) and
(0,2,3) (exactly the split `get_2d_quad_contour_plot` performs), the
edge table contains the diagonal {0,2} exactly once, owned by both
triangles, and each of the four square sides exactly once with a single
owner (second owner -1). -/
theorem square_diagonal_topology :
    ∃ es tte ett,
      get_planar_tri_edges 4 [(0, 1, 2), (0, 2, 3)] = some (es, tte, ett) ∧
      countUEdge es (0, 2) = 1 ∧ edge_owners es ett (0, 2) = [(0, 1)] ∧
      countUEdge es (0, 1) = 1 ∧ edge_owners es ett (0, 1) = [(0, -1)] ∧
      countUEdge es (1, 2) = 1 ∧ edge_owners es ett (1, 2) = [(0, -1)] ∧
      countUEdge es (2, 3) = 1 ∧ edge_owners es ett (2, 3) = [(1, -1)] ∧
      countUEdge es (3, 0) = 1 ∧ edge_owners es ett (3, 0) = [(1, -1)] :=
  ⟨[(1, 2), (2, 0), (0, 1), (2, 3), (3, 0)], [(0, 1, 2), (3, 4, 1)],
   [(0, -1), (0, 1), (0, -1), (1, -1), (1, -1)],
   by decide, by decide, by decide, by decide, by decide, by decide,
   by decide, by decide, by decide, by decide, by decide⟩

/-- C6 counterexample: the triangle (0, 1, -1) references vertex index
-1, which is outside [0, 3), yet `_get_planar_tri_edges` raises nothing
and returns a complete topology, because Python list indexing silently
wraps `-1` to the last bucket. -/
theorem invalid_mesh_counterexample :
    get_planar_tri_edges 3 [(0, 1, -1)] =
      some ([(1, -1), (-1, 0), (0, 1)], [(0, 1, 2)],
        [(0, -1), (0, -1), (0, -1)]) := by decide

theorem pyIdx_bad {n : Nat} {v : Int} (h : (n : Int) ≤ v ∨ v < -(n : Int)) :
    pyIdx n v = none := by
  unfold pyIdx
  split_ifs with h1 h2
  · omega
  · omega
  · rfl

theorem addTri_none {npts : Nat} {l : List (List Nat)} {tIdx : Nat} {t : Tri}
    (h : pyIdx npts t.1 = none ∨ pyIdx npts t.2.1 = none ∨
      pyIdx npts t.2.2 = none) :
    addTri npts l tIdx t = none := by
  cases h1 : pyIdx npts t.1 <;> cases h2 : pyIdx npts t.2.1 <;>
    cases h3 : pyIdx npts t.2.2 <;> simp_all [addTri]

theorem buildNTT_bad (npts : Nat) :
    ∀ ts : List Tri,
      (∃ t ∈ ts, pyIdx npts t.1 = none ∨ pyIdx npts t.2.1 = none ∨
        pyIdx npts t.2.2 = none) →
      ∀ (idx : Nat) (acc : List (List Nat)), buildNTT npts idx ts acc = none := by
  intro ts
  induction ts with
  | nil => intro h; simp at h
  | cons t ts ih =>
    intro h idx acc
    rcases h with ⟨u, hu, hbad⟩
    rcases List.mem_cons.mp hu with rfl | hmem
    · unfold buildNTT
      rw [addTri_none hbad]
    · unfold buildNTT
      cases ha : addTri npts acc idx t
      · rfl
      · exact ih ⟨u, hmem, hbad⟩ _ _

/-- C6 amended: a triangle referencing a vertex index that is out of
range even for Python's indexing (v >= n or v < -n) does make the
builder fail before any topology is returned (the `IndexError`, here
`none`); but an index in [-n, 0), though outside the claimed [0, n), is
wrapped silently instead (see the counterexample). -/
theorem get_planar_tri_edges_invalid (npts : Nat) (tris : List Tri)
    (h : ∃ t ∈ tris,
      ((npts : Int) ≤ t.1 ∨ t.1 < -(npts : Int)) ∨
      ((npts : Int) ≤ t.2.1 ∨ t.2.1 < -(npts : Int)) ∨
      ((npts : Int) ≤ t.2.2 ∨ t.2.2 < -(npts : Int))) :
    get_planar_tri_edges npts tris = none := by
  obtain ⟨t, ht, hbad⟩ := h
  have hnone : buildNTT npts 0 tris (List.replicate npts []) = none := by
    refine buildNTT_bad npts tris ⟨t, ht, ?_⟩ 0 _
    rcases hbad with h | h | h
    · exact Or.inl (pyIdx_bad h)
    · exact Or.inr (Or.inl (pyIdx_bad h))
    · exact Or.inr (Or.inr (pyIdx_bad h))
  unfold get_planar_tri_edges node_to_tris
  rw [hnone]

/-- Witness for the amended C6: index 5 with 2 vertices fails. -/
theorem get_planar_tri_edges_invalid_witness :
    get_planar_tri_edges 2 [(0, 1, 5)] = none :=
  get_planar_tri_edges_invalid 2 [(0, 1, 5)]
    ⟨(0, 1, 5), by decide, Or.inr (Or.inr (Or.inl (by decide)))⟩

/-- C7 counterexample: for the single triangle (0,1,2) every edge is a
boundary edge, and the missing second owner is recorded as the integer
-1 — the same `int` type as triangle indices (and itself a valid Python
list index, which line 276 of the source even exploits) — not as a
distinct "none" tag. -/
theorem boundary_sentinel_counterexample :
    ∃ es tte ett, get_planar_tri_edges 3 [(0, 1, 2)] = some (es, tte, ett) ∧
      ett.getD 0 (0, 0) = (0, -1) :=
  ⟨[(1, 2), (2, 0), (0, 1)], [(0, 1, 2)], [(0, -1), (0, -1), (0, -1)],
   by decide, by decide⟩

theorem foldl_preserve {σ α : Type*} {P : σ → Prop} {f : σ → α → σ}
    (hf : ∀ s a, P s → P (f s a)) :
    ∀ (l : List α) (s : σ), P s → P (l.foldl f s) := by
  intro l
  induction l with
  | nil => intro s h; exact h
  | cons a l ih => intro s h; exact ih _ (hf s a h)

/-- The only three shapes `edge_to_tris` can take after one slot. -/
theorem processSlot_ett (tris : List Tri) (ntt : List (List Nat))
    (st : TopoState) (tIdx i : Nat) :
    (processSlot tris ntt st tIdx i).edge_to_tris = st.edge_to_tris ∨
    (∃ adj : Nat, (processSlot tris ntt st tIdx i).edge_to_tris =
      st.edge_to_tris ++ [(tIdx, (adj : Int))]) ∨
    (processSlot tris ntt st tIdx i).edge_to_tris =
      st.edge_to_tris ++ [(tIdx, -1)] := by
  simp only [processSlot]
  split
  · split
    · right; left; exact ⟨_, rfl⟩
    · right; right; rfl
  · left; rfl

/-- C7 amended: in the produced `edge_to_tris` table the second owner
field is either the sentinel integer -1 (boundary edge) or a
nonnegative triangle index, so under the code's 0-based indexing the
sentinel never coincides with a stored owner index — but it is a plain
reused integer, not a distinct tag. -/
theorem boundary_owner_sentinel (npts : Nat) (tris : List Tri)
    (es : List (Int × Int)) (tte : List EdgeIds) (ett : List (Nat × Int))
    (h : get_planar_tri_edges npts tris = some (es, tte, ett)) :
    ∀ p ∈ ett, p.2 = -1 ∨ 0 ≤ p.2 := by
  unfold get_planar_tri_edges at h
  cases hn : node_to_tris npts tris with
  | none => rw [hn] at h; exact absurd h (by simp)
  | some ntt =>
    rw [hn] at h
    simp only [Option.some.injEq, Prod.mk.injEq] at h
    obtain ⟨-, -, hett⟩ := h
    rw [← hett]
    have key : ∀ st : TopoState,
        (∀ p ∈ st.edge_to_tris, p.2 = -1 ∨ 0 ≤ p.2) →
        ∀ t i : Nat,
        ∀ p ∈ (processSlot tris ntt st t i).edge_to_tris, p.2 = -1 ∨ 0 ≤ p.2 := by
      intro st hst t i p hp
      rcases processSlot_ett tris ntt st t i with he | ⟨adj, he⟩ | he <;>
        rw [he] at hp
      · exact hst p hp
      · rcases List.mem_append.mp hp with hp | hp
        · exact hst p hp
        · rcases List.mem_singleton.mp hp with rfl
          exact Or.inr (Int.natCast_nonneg adj)
      · rcases List.mem_append.mp hp with hp | hp
        · exact hst p hp
        · rcases List.mem_singleton.mp hp with rfl
          exact Or.inl rfl
    refine foldl_preserve (P := fun st : TopoState =>
      ∀ p ∈ st.edge_to_tris, p.2 = -1 ∨ 0 ≤ p.2) ?_ _ _ ?_
    · intro st t hst
      exact foldl_preserve (fun st2 i hst2 => key st2 hst2 t i) (List.range 3) st hst
    · intro p hp; simp at hp

/-- Witness for the amended C7 on the single-triangle mesh. -/
theorem boundary_owner_sentinel_witness :
    ((0 : Nat), (-1 : Int)).2 = -1 ∨ 0 ≤ ((0 : Nat), (-1 : Int)).2 :=
  boundary_owner_sentinel 3 [(0, 1, 2)]
    [(1, 2), (2, 0), (0, 1)] [(0, 1, 2)] [(0, -1), (0, -1), (0, -1)]
    (by decide) ((0 : Nat), (-1 : Int)) (by decide)

/-- The crossing point of a crossing edge (Python lines 228-231):
`u = (lev - vals[e[0]])/(vals[e[1]] - vals[e[0]])`, point
`((1-u)*x[e[0]] + u*x[e[1]], (1-u)*y[e[0]] + u*y[e[1]])`. -/
def crossPoint (x y vals : List ℚ) (lev : ℚ) (e : Int × Int) : ℚ × ℚ :=
  let u := (lev - pyNth vals e.1) / (pyNth vals e.2 - pyNth vals e.1)
  ((1 - u) * pyNth x e.1 + u * pyNth x e.2,
   (1 - u) * pyNth y e.1 + u * pyNth y e.2)

/-- One triangle's `inter` row (Python lines 222-235): per edge, the
crossing point when the strict-straddle test passes, else `None`. -/
def triIntersect (x y vals : List ℚ) (lev : ℚ) (t : Tri) :
    List (Option (ℚ × ℚ)) :=
  (get_tri_edges t).map (fun e =>
    if edge_cross vals lev e then some (crossPoint x y vals lev e) else none)

/-- `has_intersect[i]` read at a Python (possibly negative) index; the
walker really does read `has_intersect[-1]` when an exit edge is a
boundary edge (second owner -1). -/
def hiAt (hi : List Bool) (i : Int) : Bool :=
  match pyIdx hi.length i with
  | some j => hi.getD j false
  | none => false

/-- One `tri_to_edges` row as the list Python iterates over. -/
def rowOf (tte : List EdgeIds) (t : Nat) : List Int :=
  let r := tte.getD t (-1, -1, -1)
  [r.1, r.2.1, r.2.2]

/-- `edge_to_tris[e]` for an edge id `e`. -/
def ettAt (ett : List (Nat × Int)) (e : Int) : Nat × Int :=
  match pyIdx ett.length e with
  | some j => ett.getD j (0, -1)
  | none => (0, -1)

/-- The `for i, e_index in enumerate(tri_to_edges[next_tri_index])`
search with `break` (Python lines 266-267): the first slot whose edge
id differs from `prev_edge` and whose intersection is present. -/
def findStep : List (Int × Option (ℚ × ℚ)) → Int → Option (Int × (ℚ × ℚ))
  | [], _ => none
  | (e, o) :: rest, prev =>
    if e = prev then findStep rest prev
    else
      match o with
      | some p => some (e, p)
      | none => findStep rest prev

/-- Choice of the next triangle after consuming one (Python lines
272-277 and 292-297): first owner of the new exit edge if still
flagged, else the second owner if flagged (for a boundary edge this
tests `has_intersect[-1]` and, when true, sets `next_tri_index = -1`,
ending the walk), else -1. -/
def nextFrom (hi : List Bool) (ett : List (Nat × Int)) (e : Int) : Int :=
  let p := ettAt ett e
  if hiAt hi (p.1 : Int) then (p.1 : Int)
  else if hiAt hi p.2 then p.2
  else -1

/-- The `while next_tri_index >= 0` walk (Python lines 265-278 forward,
285-298 backward); `app = true` appends the found crossing points,
`app = false` prepends them (`X.insert(0, ...)`).  Python's loop
diverges when the inner search finds nothing (`next_tri_index` then
never changes); `fuel` makes the recursion total, and `tris.length + 1`
steps cover every terminating Python run because after the first step
each visited triangle must carry a still-set `has_intersect` flag,
which the visit clears. -/
def walk (inters : List (List (Option (ℚ × ℚ)))) (tte : List EdgeIds)
    (ett : List (Nat × Int)) (app : Bool) :
    Nat → List Bool → Int → Int → List (ℚ × ℚ) → List Bool × List (ℚ × ℚ)
  | 0, hi, _, _, pts => (hi, pts)
  | fuel + 1, hi, prevEdge, nextTri, pts =>
    if nextTri ≥ 0 then
      match findStep ((rowOf tte nextTri.toNat).zip (inters.getD nextTri.toNat [])) prevEdge with
      | none => (hi, pts)
      | some (e, p) =>
        let hi2 := hi.set nextTri.toNat false
        walk inters tte ett app fuel hi2 e (nextFrom hi2 ett e)
          (if app then pts ++ [p] else p :: pts)
    else (hi, pts)

/-- Python lines 259-262 / 280-283: `edge_to_tris[prev_edge][0]`,
replaced by `[1]` when it equals the current triangle. -/
def otherOwner (ett : List (Nat × Int)) (e : Int) (tIdx : Nat) : Int :=
  let p := ettAt ett e
  if p.1 = tIdx then p.2 else (p.1 : Int)

/-- The body of the outer `for tri_index, tri in enumerate(tris)` loop
(Python lines 243-300) for one triangle index: when the triangle is
still flagged, seed a polyline with its (two) crossing points, clear
the flag, extend forward from `tri_edges[1]` and backward from
`tri_edges[0]`, and append the polyline. -/
def contourStep (inters : List (List (Option (ℚ × ℚ)))) (tte : List EdgeIds)
    (ett : List (Nat × Int)) (fuel : Nat)
    (st : List Bool × List (List (ℚ × ℚ))) (tIdx : Nat) :
    List Bool × List (List (ℚ × ℚ)) :=
  if (st.1).getD tIdx false then
    let row := (rowOf tte tIdx).zip (inters.getD tIdx [])
    let pts0 := row.filterMap (fun q => q.2)
    let eids := (row.filter (fun q => q.2.isSome)).map (fun q => q.1)
    let hi1 := (st.1).set tIdx false
    let r1 := walk inters tte ett true fuel hi1 (eids.getD 1 (-1))
      (otherOwner ett (eids.getD 1 (-1)) tIdx) pts0
    let r2 := walk inters tte ett false fuel r1.1 (eids.getD 0 (-1))
      (otherOwner ett (eids.getD 0 (-1)) tIdx) r1.2
    (r2.1, st.2 ++ [r2.2])
  else st

/-- `_get_2d_tri_contour_lines(x, y, vals, tris, edges, tri_to_edges,
edge_to_tris, lev)`.  The source's parallel coordinate lists `X`, `Y`
are modelled as one list of points (they are only ever extended in
lockstep); the `edges` argument is, as in the source, unused. -/
def get_2d_tri_contour_lines (x y vals : List ℚ) (tris : List Tri)
    (edges : List (Int × Int)) (tte : List EdgeIds) (ett : List (Nat × Int))
    (lev : ℚ) : List (List (ℚ × ℚ)) :=
  let inters := tris.map (triIntersect x y vals lev)
  let hi0 := inters.map (fun r => decide ((r.filter (fun o => o.isSome)).length = 2))
  ((List.range tris.length).foldl
    (contourStep inters tte ett (tris.length + 1)) (hi0, [])).2

theorem triIntersect_single_eval :
    triIntersect [0, 1, 0] [0, 0, 1] [0, 1, 2] (3/2) (0, 1, 2) =
      [some (1/2, 1/2), some (0, 3/4), none] := by
  have v0 : pyNth [0, 1, 2] 0 = 0 := rfl
  have v1 : pyNth [0, 1, 2] 1 = 1 := rfl
  have v2 : pyNth [0, 1, 2] 2 = 2 := rfl
  have x0 : pyNth [0, 1, 0] 0 = 0 := rfl
  have x1 : pyNth [0, 1, 0] 1 = 1 := rfl
  have x2 : pyNth [0, 1, 0] 2 = 0 := rfl
  have y0 : pyNth [0, 0, 1] 0 = 0 := rfl
  have y1 : pyNth [0, 0, 1] 1 = 0 := rfl
  have y2 : pyNth [0, 0, 1] 2 = 1 := rfl
  norm_num [triIntersect, get_tri_edges, edge_cross, crossB, crossPoint,
    v0, v1, v2, x0, x1, x2, y0, y1, y2, decide_eq_true_eq]

theorem contour_single_eval :
    get_2d_tri_contour_lines [0, 1, 0] [0, 0, 1] [0, 1, 2] [(0, 1, 2)]
      [(1, 2), (2, 0), (0, 1)] [(0, 1, 2)] [(0, -1), (0, -1), (0, -1)]
      (3/2) = [[(1/2, 1/2), (0, 3/4)]] := by
  simp only [get_2d_tri_contour_lines, List.map, triIntersect_single_eval]
  norm_num [contourStep, walk, rowOf, ettAt, findStep, nextFrom,
    otherOwner, hiAt, pyIdx, List.getD, List.get?, List.range_succ,
    List.filterMap, List.filter]

/-- C2: tracing level 3/2 on the single triangle with vertices (0,0),
(1,0), (0,1) and field values 0, 1, 2 — with the topology computed by
`_get_planar_tri_edges` — yields exactly one polyline of exactly two
points: (1/2, 1/2), the interpolated crossing of the edge between the
value-1 and value-2 vertices, then (0, 3/4), the crossing of the edge
between the value-0 and value-2 vertices. -/
theorem single_triangle_contour :
    ∃ es tte ett, get_planar_tri_edges 3 [(0, 1, 2)] = some (es, tte, ett) ∧
      get_2d_tri_contour_lines [0, 1, 0] [0, 0, 1] [0, 1, 2] [(0, 1, 2)]
        es tte ett (3/2) = [[(1/2, 1/2), (0, 3/4)]] :=
  ⟨[(1, 2), (2, 0), (0, 1)], [(0, 1, 2)], [(0, -1), (0, -1), (0, -1)],
   by decide, contour_single_eval⟩

theorem getD_set_false (l : List Bool) (t j : Nat)
    (h : (l.set t false).getD j false = true) : l.getD j false = true := by
  induction l generalizing t j with
  | nil => simpa using h
  | cons a l ih =>
    cases t with
    | zero =>
      cases j with
      | zero => simp at h
      | succ j => simpa using h
    | succ t =>
      cases j with
      | zero => simpa using h
      | succ j => exact ih t j (by simpa using h)

/-- The walk only adds points to the polyline it extends. -/
theorem walk_length (inters : List (List (Option (ℚ × ℚ))))
    (tte : List EdgeIds) (ett : List (Nat × Int)) (app : Bool) :
    ∀ (fuel : Nat) (hi : List Bool) (pe nt : Int) (pts : List (ℚ × ℚ)),
      pts.length ≤ (walk inters tte ett app fuel hi pe nt pts).2.length := by
  intro fuel
  induction fuel with
  | zero => intro hi pe nt pts; simp [walk]
  | succ fuel ih =>
    intro hi pe nt pts
    rw [walk]
    split
    · split
      · exact le_rfl
      · refine le_trans ?_ (ih _ _ _ _)
        cases app <;> simp
    · exact le_rfl

/-- The walk never raises a `has_intersect` flag. -/
theorem walk_hi_mono (inters : List (List (Option (ℚ × ℚ))))
    (tte : List EdgeIds) (ett : List (Nat × Int)) (app : Bool) :
    ∀ (fuel : Nat) (hi : List Bool) (pe nt : Int) (pts : List (ℚ × ℚ)) (j : Nat),
      ((walk inters tte ett app fuel hi pe nt pts).1).getD j false = true →
      hi.getD j false = true := by
  intro fuel
  induction fuel with
  | zero => intro hi pe nt pts j h; simpa [walk] using h
  | succ fuel ih =>
    intro hi pe nt pts j h
    rw [walk] at h
    split at h
    · split at h
      · exact h
      · exact getD_set_false _ _ _ (ih _ _ _ _ _ h)
    · exact h

theorem filterMap_snd_zip_length {α β : Type*} (l1 : List α) (l2 : List (Option β))
    (h : l2.length ≤ l1.length) :
    ((l1.zip l2).filterMap (fun q => q.2)).length =
      (l2.filter (fun o => o.isSome)).length := by
  induction l2 generalizing l1 with
  | nil => simp
  | cons o l2 ih =>
    cases l1 with
    | nil => simp at h
    | cons a l1 =>
      simp only [List.zip_cons_cons, List.filterMap_cons, List.filter_cons]
      cases o with
      | none => simpa using ih l1 (by simpa using h)
      | some b => simpa using ih l1 (by simpa using h)

theorem hi0_getD_count (ri : List (List (Option (ℚ × ℚ)))) :
    ∀ t : Nat,
      ((ri.map (fun r => decide ((r.filter (fun o => o.isSome)).length = 2))).getD
        t false) = true →
      ((ri.getD t []).filter (fun o => o.isSome)).length = 2 := by
  induction ri with
  | nil => intro t h; simp at h
  | cons r ri ih =>
    intro t h
    cases t with
    | zero => simpa using of_decide_eq_true (by simpa using h)
    | succ t => exact ih t (by simpa using h)

theorem triIntersect_map_getD_len (x y vals : List ℚ) (lev : ℚ) :
    ∀ (ts : List Tri) (t : Nat),
      ((ts.map (triIntersect x y vals lev)).getD t []).length ≤ 3 := by
  intro ts
  induction ts with
  | nil => intro t; simp
  | cons tr ts ih =>
    intro t
    cases t with
    | zero => simp [triIntersect, get_tri_edges]
    | succ t => simpa using ih t

/-- C10: every polyline returned by one contour-tracing call has at
least two points: a polyline is seeded only at a triangle whose
`has_intersect` flag is set, that flag means exactly two of the
triangle's edge intersections are present, both are put in the polyline
before the walks, and the walks only append or prepend points. -/
theorem contour_polyline_min_length
    (x y vals : List ℚ) (tris : List Tri) (edges : List (Int × Int))
    (tte : List EdgeIds) (ett : List (Nat × Int)) (lev : ℚ) :
    ∀ l ∈ get_2d_tri_contour_lines x y vals tris edges tte ett lev,
      2 ≤ l.length := by
  unfold get_2d_tri_contour_lines
  intro l hl
  set inters := tris.map (triIntersect x y vals lev) with hinters
  have hstep : ∀ (st : List Bool × List (List (ℚ × ℚ))) (tIdx : Nat),
      ((∀ t : Nat, st.1.getD t false = true →
        ((inters.getD t []).filter (fun o => o.isSome)).length = 2) ∧
       (∀ l2 ∈ st.2, 2 ≤ l2.length)) →
      ((∀ t : Nat,
          (contourStep inters tte ett (tris.length + 1) st tIdx).1.getD t false = true →
          ((inters.getD t []).filter (fun o => o.isSome)).length = 2) ∧
       (∀ l2 ∈ (contourStep inters tte ett (tris.length + 1) st tIdx).2,
          2 ≤ l2.length)) := by
    intro st tIdx hst
    by_cases hflag : st.1.getD tIdx false = true
    · simp only [contourStep, hflag, if_true]
      constructor
      · intro t ht
        exact hst.1 t (getD_set_false _ _ _
          (walk_hi_mono _ _ _ _ _ _ _ _ _ _
            (walk_hi_mono _ _ _ _ _ _ _ _ _ _ ht)))
      · intro l2 hl2
        rcases List.mem_append.mp hl2 with hmem | hmem
        · exact hst.2 l2 hmem
        · rcases List.mem_singleton.mp hmem with rfl
          have hcount := hst.1 tIdx hflag
          have hlen0 :
              (((rowOf tte tIdx).zip (inters.getD tIdx [])).filterMap
                (fun q => q.2)).length = 2 := by
            rw [filterMap_snd_zip_length]
            · exact hcount
            · rw [hinters]
              exact triIntersect_map_getD_len x y vals lev tris tIdx
          calc 2 = (((rowOf tte tIdx).zip (inters.getD tIdx [])).filterMap
                (fun q => q.2)).length := hlen0.symm
            _ ≤ _ := le_trans (walk_length _ _ _ _ _ _ _ _ _)
                (walk_length _ _ _ _ _ _ _ _ _)
    · simp only [contourStep, hflag, if_false]
      exact hst
  have hinit :
      ((∀ t : Nat,
          ((inters.map (fun r => decide ((r.filter (fun o => o.isSome)).length = 2))).getD
            t false) = true →
          ((inters.getD t []).filter (fun o => o.isSome)).length = 2) ∧
       (∀ l2 ∈ ([] : List (List (ℚ × ℚ))), 2 ≤ l2.length)) :=
    ⟨hi0_getD_count inters, by intro l2 hl2; simp at hl2⟩
  have final := foldl_preserve hstep (List.range tris.length)
    (inters.map (fun r => decide ((r.filter (fun o => o.isSome)).length = 2)), []) hinit
  exact final.2 l hl

/-- Witness for C10 on the single-triangle mesh. -/
theorem contour_polyline_min_length_witness :
    2 ≤ ([((1 : ℚ)/2, (1 : ℚ)/2), (0, 3/4)] : List (ℚ × ℚ)).length :=
  contour_polyline_min_length [0, 1, 0] [0, 0, 1] [0, 1, 2] [(0, 1, 2)]
    [(1, 2), (2, 0), (0, 1)] [(0, 1, 2)] [(0, -1), (0, -1), (0, -1)] (3/2)
    [(1/2, 1/2), (0, 3/4)] (by rw [contour_single_eval]; simp)

theorem getD_append_lt {α : Type*} (l l2 : List α) (n : Nat) (d : α)
    (h : n < l.length) : (l ++ l2).getD n d = l.getD n d := by
  induction l generalizing n with
  | nil => simp at h
  | cons a l ih =>
    cases n with
    | zero => simp
    | succ n => simpa using ih n (by simpa using h)

theorem getD_append_len {α : Type*} (l : List α) (x : α) (d : α) :
    (l ++ [x]).getD l.length d = x := by
  induction l with
  | nil => rfl
  | cons a l ih => simpa using ih

theorem getD_set_self {α : Type*} (l : List α) (n : Nat) (a d : α)
    (h : n < l.length) : (l.set n a).getD n d = a := by
  induction l generalizing n with
  | nil => simp at h
  | cons b l ih =>
    cases n with
    | zero => simp
    | succ n => simpa using ih n (by simpa using h)

theorem getD_set_ne {α : Type*} (l : List α) (n m : Nat) (a d : α)
    (h : n ≠ m) : (l.set n a).getD m d = l.getD m d := by
  induction l generalizing n m with
  | nil => simp
  | cons b l ih =>
    cases n with
    | zero =>
      cases m with
      | zero => exact absurd rfl h
      | succ m => simp
    | succ n =>
      cases m with
      | zero => simp
      | succ m => simpa using ih n m (fun hh => h (by omega))

theorem getD_map_const {α β : Type*} (l : List α) (c : β) (n : Nat) (d : β)
    (h : n < l.length) : (l.map (fun _ => c)).getD n d = c := by
  induction l generalizing n with
  | nil => simp at h
  | cons a l ih =>
    cases n with
    | zero => simp
    | succ n => simpa using ih n (by simpa using h)

theorem getD_mem_of_lt {α : Type*} (l : List α) (n : Nat) (d : α)
    (h : n < l.length) : l.getD n d ∈ l := by
  induction l generalizing n with
  | nil => simp at h
  | cons a l ih =>
    cases n with
    | zero => simp
    | succ n =>
      simp only [List.getD_cons_succ]
      exact List.mem_cons_of_mem a (ih n (by simpa using h))

theorem uMatch_iff {e1 e2 : Int × Int} :
    uMatch e1 e2 = true ↔
      ((e1.1 = e2.1 ∧ e1.2 = e2.2) ∨ (e1.2 = e2.1 ∧ e1.1 = e2.2)) := by
  simp [uMatch, Bool.or_eq_true, Bool.and_eq_true, beq_iff_eq]

theorem uMatch_refl (e : Int × Int) : uMatch e e = true := by
  simp [uMatch_iff]

theorem uMatch_symm {e1 e2 : Int × Int} (h : uMatch e1 e2 = true) :
    uMatch e2 e1 = true := by
  rw [uMatch_iff] at h ⊢
  omega

theorem uMatch_trans {e1 e2 e3 : Int × Int} (h1 : uMatch e1 e2 = true)
    (h2 : uMatch e2 e3 = true) : uMatch e1 e3 = true := by
  rw [uMatch_iff] at h1 h2 ⊢
  omega

/-- The i-th directed edge of a triangle. -/
def triEdgeAt (t : Tri) (i : Nat) : Int × Int := (get_tri_edges t).getD i (0, 0)

/-- The triangle at list position `t` has `e` among its (unordered)
edges. -/
def triHas (tris : List Tri) (t : Nat) (e : Int × Int) : Prop :=
  ∃ i : Nat, i < 3 ∧ uMatch (triEdgeAt (tris.getD t (0, 0, 0)) i) e = true

/-- A well-formed triangle for `npts` vertices: indices in [0, npts)
and pairwise distinct. -/
def triOK (npts : Nat) (t : Tri) : Prop :=
  0 ≤ t.1 ∧ t.1 < (npts : Int) ∧ 0 ≤ t.2.1 ∧ t.2.1 < (npts : Int) ∧
  0 ≤ t.2.2 ∧ t.2.2 < (npts : Int) ∧ t.1 ≠ t.2.1 ∧ t.1 ≠ t.2.2 ∧ t.2.1 ≠ t.2.2

/-- Vertex `u` occurs in the triangle. -/
def vertHas (t : Tri) (u : Nat) : Prop :=
  t.1 = (u : Int) ∨ t.2.1 = (u : Int) ∨ t.2.2 = (u : Int)

/-- A 2-manifold triangle list: no unordered edge is shared by three
distinct entries of the list. -/
def Manifold (tris : List Tri) : Prop :=
  ∀ (t1 t2 t3 : Nat) (e : Int × Int),
    t1 < tris.length → t2 < tris.length → t3 < tris.length →
    t1 ≠ t2 → t1 ≠ t3 → t2 ≠ t3 →
    triHas tris t1 e → triHas tris t2 e → triHas tris t3 e → False

/-- In a triangle with pairwise distinct vertices, distinct slots carry
distinct unordered edges. -/
theorem triEdge_slot_unique {t : Tri}
    (h1 : t.1 ≠ t.2.1) (h2 : t.1 ≠ t.2.2) (h3 : t.2.1 ≠ t.2.2)
    {i j : Nat} (hi : i < 3) (hj : j < 3)
    (h : uMatch (triEdgeAt t i) (triEdgeAt t j) = true) : i = j := by
  interval_cases i <;> interval_cases j <;>
    simp only [triEdgeAt, get_tri_edges, List.getD_cons_zero,
      List.getD_cons_succ, uMatch_iff] at h <;> omega

theorem slotGet_slotSet_self (r : EdgeIds) {i : Nat} (hi : i < 3) (v : Int) :
    slotGet (slotSet r i v) i = v := by
  interval_cases i <;> rfl

theorem slotGet_slotSet_ne (r : EdgeIds) {i j : Nat} (hne : i ≠ j)
    (hi : i < 3) (hj : j < 3) (v : Int) :
    slotGet (slotSet r i v) j = slotGet r j := by
  interval_cases i <;> interval_cases j <;> first | rfl | exact absurd rfl hne

/-- `tri_to_edges[t][i]` as a total function on states. -/
def tteSlot (tte : List EdgeIds) (t i : Nat) : Int :=
  slotGet (tte.getD t (-1, -1, -1)) i

theorem setSlot_length (tte : List EdgeIds) (t i : Nat) (v : Int) :
    (setSlot tte t i v).length = tte.length := by
  simp [setSlot]

theorem tteSlot_setSlot_self (tte : List EdgeIds) {t i : Nat}
    (ht : t < tte.length) (hi : i < 3) (v : Int) :
    tteSlot (setSlot tte t i v) t i = v := by
  unfold tteSlot setSlot
  rw [getD_set_self _ _ _ _ ht, slotGet_slotSet_self _ hi]

theorem tteSlot_setSlot_ne (tte : List EdgeIds) {t i t2 i2 : Nat}
    (h : t ≠ t2 ∨ i ≠ i2) (hi : i < 3) (hi2 : i2 < 3) (v : Int) :
    tteSlot (setSlot tte t i v) t2 i2 = tteSlot tte t2 i2 := by
  unfold tteSlot setSlot
  by_cases ht : t = t2
  · subst ht
    have hii : i ≠ i2 := by
      rcases h with h | h
      · exact absurd rfl h
      · exact h
    by_cases htl : t < tte.length
    · rw [getD_set_self _ _ _ _ htl, slotGet_slotSet_ne _ hii hi hi2]
    · rw [List.set_eq_of_length_le (by omega)]
  · rw [getD_set_ne _ _ _ _ _ ht]

theorem findEdgeIndex_some {t : Tri} {e1 : Int × Int} {j : Nat}
    (h : findEdgeIndex t e1 = some j) :
    j < 3 ∧ uMatch e1 (triEdgeAt t j) = true := by
  unfold findEdgeIndex at h
  split_ifs at h with h0 h1 h2
  · simp only [Option.some.injEq] at h
    subst h
    exact ⟨by omega, by simpa [triEdgeAt, get_tri_edges] using h0⟩
  · simp only [Option.some.injEq] at h
    subst h
    exact ⟨by omega, by simpa [triEdgeAt, get_tri_edges] using h1⟩
  · simp only [Option.some.injEq] at h
    subst h
    exact ⟨by omega, by simpa [triEdgeAt, get_tri_edges] using h2⟩

theorem findEdgeIndex_none {t : Tri} {e1 : Int × Int}
    (h : findEdgeIndex t e1 = none) :
    ∀ j : Nat, j < 3 → uMatch e1 (triEdgeAt t j) = false := by
  unfold findEdgeIndex at h
  split_ifs at h with h0 h1 h2
  intro j hj
  interval_cases j
  · exact Bool.eq_false_iff.mpr (by simpa [triEdgeAt, get_tri_edges] using h0)
  · exact Bool.eq_false_iff.mpr (by simpa [triEdgeAt, get_tri_edges] using h1)
  · exact Bool.eq_false_iff.mpr (by simpa [triEdgeAt, get_tri_edges] using h2)

theorem findMatch_some {tris : List Tri} {tIdx : Nat} {e1 : Int × Int} :
    ∀ {l : List Nat} {adj j : Nat},
      findMatch tris tIdx e1 l = some (adj, j) →
      adj ∈ l ∧ adj ≠ tIdx ∧
        findEdgeIndex (tris.getD adj (0, 0, 0)) e1 = some j := by
  intro l
  induction l with
  | nil => intro adj j h; simp [findMatch] at h
  | cons a l ih =>
    intro adj j h
    rw [findMatch] at h
    by_cases ha : a = tIdx
    · rw [if_pos ha] at h
      obtain ⟨hm, hne, hf⟩ := ih h
      exact ⟨List.mem_cons_of_mem _ hm, hne, hf⟩
    · rw [if_neg ha] at h
      cases hf : findEdgeIndex (tris.getD a (0, 0, 0)) e1 with
      | some j2 =>
        rw [hf] at h
        simp only [Option.some.injEq, Prod.mk.injEq] at h
        obtain ⟨rfl, rfl⟩ := h
        exact ⟨List.mem_cons_self _ _, ha, hf⟩
      | none =>
        rw [hf] at h
        obtain ⟨hm, hne, hf2⟩ := ih h
        exact ⟨List.mem_cons_of_mem _ hm, hne, hf2⟩

theorem findMatch_none {tris : List Tri} {tIdx : Nat} {e1 : Int × Int} :
    ∀ {l : List Nat}, findMatch tris tIdx e1 l = none →
      ∀ adj ∈ l, adj ≠ tIdx →
        findEdgeIndex (tris.getD adj (0, 0, 0)) e1 = none := by
  intro l
  induction l with
  | nil => intro h adj hmem; simp at hmem
  | cons a l ih =>
    intro h adj hmem hne
    rw [findMatch] at h
    by_cases ha : a = tIdx
    · rw [if_pos ha] at h
      rcases List.mem_cons.mp hmem with rfl | hmem2
      · exact absurd ha hne
      · exact ih h adj hmem2 hne
    · rw [if_neg ha] at h
      cases hf : findEdgeIndex (tris.getD a (0, 0, 0)) e1 with
      | some j2 => rw [hf] at h; simp at h
      | none =>
        rw [hf] at h
        rcases List.mem_cons.mp hmem with rfl | hmem2
        · exact hf
        · exact ih h adj hmem2 hne

theorem nttAt_eq {ntt : List (List Nat)} {v : Int}
    (h0 : 0 ≤ v) (h1 : v < (ntt.length : Int)) :
    nttAt ntt v = ntt.getD v.toNat [] := by
  unfold nttAt pyIdx
  rw [if_pos ⟨h0, h1⟩]

theorem appendAt_cons_succ (a : List Nat) (l : List (List Nat))
    (j v : Nat) : appendAt (a :: l) (j + 1) v = a :: appendAt l j v := by
  simp [appendAt]

theorem appendAt_getD_mem (l : List (List Nat)) (j u v w : Nat) :
    w ∈ (appendAt l j v).getD u [] ↔
      w ∈ l.getD u [] ∨ (u = j ∧ j < l.length ∧ w = v) := by
  induction l generalizing j u with
  | nil => simp [appendAt]
  | cons a l ih =>
    cases j with
    | zero =>
      cases u with
      | zero => simp [appendAt]
      | succ u => simp [appendAt]
    | succ j =>
      rw [appendAt_cons_succ]
      cases u with
      | zero => simp
      | succ u => simpa [Nat.succ_lt_succ_iff] using ih j u

theorem addTri_spec {npts : Nat} {l : List (List Nat)} {tIdx : Nat} {t : Tri}
    (hok : triOK npts t) (hlen : l.length = npts) :
    ∃ l2, addTri npts l tIdx t = some l2 ∧ l2.length = npts ∧
      ∀ u w : Nat,
        (w ∈ l2.getD u [] ↔
          w ∈ l.getD u [] ∨ (w = tIdx ∧ u < npts ∧ vertHas t u)) := by
  obtain ⟨ha0, ha1, hb0, hb1, hc0, hc1, -, -, -⟩ := hok
  have pa : pyIdx npts t.1 = some t.1.toNat := by
    unfold pyIdx; rw [if_pos ⟨ha0, ha1⟩]
  have pb : pyIdx npts t.2.1 = some t.2.1.toNat := by
    unfold pyIdx; rw [if_pos ⟨hb0, hb1⟩]
  have pc : pyIdx npts t.2.2 = some t.2.2.toNat := by
    unfold pyIdx; rw [if_pos ⟨hc0, hc1⟩]
  have L1 : (appendAt l t.1.toNat tIdx).length = npts := by
    simp [appendAt, hlen]
  have L2 : (appendAt (appendAt l t.1.toNat tIdx) t.2.1.toNat tIdx).length
      = npts := by simp [appendAt, hlen]
  refine ⟨appendAt (appendAt (appendAt l t.1.toNat tIdx) t.2.1.toNat tIdx)
    t.2.2.toNat tIdx, ?_, by simp [appendAt, hlen], ?_⟩
  · unfold addTri
    rw [pa, pb, pc]
  · intro u w
    rw [appendAt_getD_mem, appendAt_getD_mem, appendAt_getD_mem, L1, L2, hlen]
    simp only [vertHas]
    constructor
    · rintro (((h | ⟨h1, h2, h3⟩) | ⟨h1, h2, h3⟩) | ⟨h1, h2, h3⟩)
      · exact Or.inl h
      · exact Or.inr ⟨h3, by omega, Or.inl (by omega)⟩
      · exact Or.inr ⟨h3, by omega, Or.inr (Or.inl (by omega))⟩
      · exact Or.inr ⟨h3, by omega, Or.inr (Or.inr (by omega))⟩
    · rintro (h | ⟨hw, hu, hv | hv | hv⟩)
      · exact Or.inl (Or.inl (Or.inl h))
      · exact Or.inl (Or.inl (Or.inr ⟨by omega, by omega, hw⟩))
      · exact Or.inl (Or.inr ⟨by omega, by omega, hw⟩)
      · exact Or.inr ⟨by omega, by omega, hw⟩

theorem buildNTT_spec (npts : Nat) :
    ∀ (ts : List Tri) (idx : Nat) (acc : List (List Nat)),
      (∀ t ∈ ts, triOK npts t) → acc.length = npts →
      ∃ res, buildNTT npts idx ts acc = some res ∧ res.length = npts ∧
        ∀ u w : Nat,
          (w ∈ res.getD u [] ↔ w ∈ acc.getD u [] ∨
            ∃ p : Nat, p < ts.length ∧ w = idx + p ∧ u < npts ∧
              vertHas (ts.getD p (0, 0, 0)) u) := by
  intro ts
  induction ts with
  | nil =>
    intro idx acc hok hlen
    exact ⟨acc, rfl, hlen, by simp⟩
  | cons t ts ih =>
    intro idx acc hok hlen
    obtain ⟨acc2, ha, hlen2, hmem2⟩ := addTri_spec (hok t (by simp)) hlen
    obtain ⟨res, hb, hlen3, hmem3⟩ :=
      ih (idx + 1) acc2 (fun t2 ht2 => hok t2 (List.mem_cons_of_mem _ ht2)) hlen2
    refine ⟨res, ?_, hlen3, ?_⟩
    · rw [buildNTT, ha]
      exact hb
    · intro u w
      rw [hmem3, hmem2]
      constructor
      · rintro ((h | ⟨hw, hu, hv⟩) | ⟨p, hp, hw, hu, hv⟩)
        · exact Or.inl h
        · exact Or.inr ⟨0, by simp, by omega, hu, by simpa using hv⟩
        · exact Or.inr ⟨p + 1, by simpa using hp, by omega, hu, by simpa using hv⟩
      · rintro (h | ⟨p, hp, hw, hu, hv⟩)
        · exact Or.inl (Or.inl h)
        · cases p with
          | zero => exact Or.inl (Or.inr ⟨by omega, hu, by simpa using hv⟩)
          | succ p =>
            exact Or.inr ⟨p, by simpa using hp, by omega, hu, by simpa using hv⟩

theorem replicate_getD_nil (n u : Nat) :
    (List.replicate n ([] : List Nat)).getD u [] = [] := by
  induction n generalizing u with
  | zero => simp
  | succ n ih =>
    cases u with
    | zero => simp
    | succ u => simpa [List.replicate_succ] using ih u

theorem node_to_tris_spec {npts : Nat} {tris : List Tri}
    (H : ∀ t ∈ tris, triOK npts t) :
    ∃ ntt, node_to_tris npts tris = some ntt ∧ ntt.length = npts ∧
      ∀ u w : Nat,
        (w ∈ ntt.getD u [] ↔ w < tris.length ∧ u < npts ∧
          vertHas (tris.getD w (0, 0, 0)) u) := by
  obtain ⟨res, h1, h2, h3⟩ :=
    buildNTT_spec npts tris 0 (List.replicate npts []) H (by simp)
  refine ⟨res, h1, h2, ?_⟩
  intro u w
  rw [h3, replicate_getD_nil]
  simp only [List.not_mem_nil, false_or]
  constructor
  · rintro ⟨p, hp, hw, hu, hv⟩
    refine ⟨by omega, hu, ?_⟩
    rw [show w = p by omega]
    exact hv
  · rintro ⟨hw, hu, hv⟩
    exact ⟨w, hw, by omega, hu, hv⟩

/-- The `e1` edge the builder computes for slot `(t, i)`. -/
def edgeAt (tris : List Tri) (t i : Nat) : Int × Int :=
  (get_tri_edges (tris.getD t (0, 0, 0))).getD i (0, 0)

theorem edgeAt_eq (tris : List Tri) (t i : Nat) :
    edgeAt tris t i = triEdgeAt (tris.getD t (0, 0, 0)) i := rfl

theorem edgeAt_slot_unique {npts : Nat} {tris : List Tri}
    (H : ∀ t ∈ tris, triOK npts t) {t i j : Nat}
    (ht : t < tris.length) (hi : i < 3) (hj : j < 3)
    (h : uMatch (edgeAt tris t i) (edgeAt tris t j) = true) : i = j := by
  obtain ⟨-, -, -, -, -, -, d1, d2, d3⟩ :=
    H _ (getD_mem_of_lt tris t (0, 0, 0) ht)
  exact triEdge_slot_unique d1 d2 d3 hi hj h

theorem uMatch_vert1 {t : Tri} {j : Nat} (hj : j < 3) {e : Int × Int}
    (h : uMatch (triEdgeAt t j) e = true) :
    t.1 = e.1 ∨ t.2.1 = e.1 ∨ t.2.2 = e.1 := by
  interval_cases j <;>
    (rw [uMatch_iff] at h
     simp only [triEdgeAt, get_tri_edges, List.getD_cons_zero,
       List.getD_cons_succ] at h
     omega)

theorem edgeAt_bounds {npts : Nat} {tris : List Tri}
    (H : ∀ t ∈ tris, triOK npts t) {t i : Nat}
    (ht : t < tris.length) (hi : i < 3) :
    0 ≤ (edgeAt tris t i).1 ∧ (edgeAt tris t i).1 < (npts : Int) ∧
    0 ≤ (edgeAt tris t i).2 ∧ (edgeAt tris t i).2 < (npts : Int) := by
  obtain ⟨a0, a1, b0, b1, c0, c1, -, -, -⟩ :=
    H _ (getD_mem_of_lt tris t (0, 0, 0) ht)
  interval_cases i <;>
    simp only [edgeAt, get_tri_edges, List.getD_cons_zero,
      List.getD_cons_succ] <;>
    exact ⟨by omega, by omega, by omega, by omega⟩

/-- The loop invariant of the edge-numbering pass of
`_get_planar_tri_edges`. -/
structure TopoInv (tris : List Tri) (st : TopoState) : Prop where
  elen : st.edge_to_tris.length = st.edges.length
  tlen : st.tri_to_edges.length = tris.length
  slot_bound : ∀ t i : Nat, t < tris.length → i < 3 →
    tteSlot st.tri_to_edges t i = -1 ∨
    ∃ k : Nat, tteSlot st.tri_to_edges t i = (k : Int) ∧ k < st.edges.length
  slot_edge : ∀ t i k : Nat, t < tris.length → i < 3 →
    tteSlot st.tri_to_edges t i = (k : Int) →
    uMatch (st.edges.getD k (0, 0)) (edgeAt tris t i) = true
  owner_fst : ∀ k : Nat, k < st.edges.length →
    (st.edge_to_tris.getD k (0, -1)).1 < tris.length ∧
    ∃ i0 : Nat, i0 < 3 ∧
      tteSlot st.tri_to_edges (st.edge_to_tris.getD k (0, -1)).1 i0 = (k : Int)
  owner_snd : ∀ k : Nat, k < st.edges.length →
    ((st.edge_to_tris.getD k (0, -1)).2 = -1 ∧
      ∀ t : Nat, t < tris.length → triHas tris t (st.edges.getD k (0, 0)) →
        t = (st.edge_to_tris.getD k (0, -1)).1) ∨
    (∃ adj : Nat, (st.edge_to_tris.getD k (0, -1)).2 = (adj : Int) ∧
      adj < tris.length ∧ adj ≠ (st.edge_to_tris.getD k (0, -1)).1 ∧
      ∃ i1 : Nat, i1 < 3 ∧ tteSlot st.tri_to_edges adj i1 = (k : Int))
  slot_owner : ∀ t i k : Nat, t < tris.length → i < 3 →
    tteSlot st.tri_to_edges t i = (k : Int) →
    ((st.edge_to_tris.getD k (0, -1)).1 = t ∨
     (st.edge_to_tris.getD k (0, -1)).2 = (t : Int))
  edges_uniq : ∀ k k2 : Nat, k < st.edges.length → k2 < st.edges.length →
    k ≠ k2 →
    uMatch (st.edges.getD k (0, 0)) (st.edges.getD k2 (0, 0)) = true → False

/-- While slot `(tIdx, i)` is unassigned, its edge is not yet in the
edge table. -/
theorem fresh_edge {npts : Nat} {tris : List Tri} {st : TopoState}
    (H : ∀ t ∈ tris, triOK npts t) (M : Manifold tris)
    (inv : TopoInv tris st)
    {tIdx i : Nat} (ht : tIdx < tris.length) (hi : i < 3)
    (hslot : tteSlot st.tri_to_edges tIdx i = -1) :
    ∀ k : Nat, k < st.edges.length →
      uMatch (st.edges.getD k (0, 0)) (edgeAt tris tIdx i) = true → False := by
  intro k hk hum
  obtain ⟨ho1lt, i0, hi0, hs0⟩ := inv.owner_fst k hk
  have hedge0 : uMatch (st.edges.getD k (0, 0))
      (edgeAt tris (st.edge_to_tris.getD k (0, -1)).1 i0) = true :=
    inv.slot_edge _ i0 k ho1lt hi0 hs0
  have hmm : uMatch (edgeAt tris (st.edge_to_tris.getD k (0, -1)).1 i0)
      (edgeAt tris tIdx i) = true :=
    uMatch_trans (uMatch_symm hedge0) hum
  by_cases ho1t : (st.edge_to_tris.getD k (0, -1)).1 = tIdx
  · rw [ho1t] at hmm hs0
    have hieq : i0 = i := edgeAt_slot_unique H ht hi0 hi hmm
    rw [hieq] at hs0
    rw [hs0] at hslot
    omega
  · have hHasO1 : triHas tris (st.edge_to_tris.getD k (0, -1)).1
        (edgeAt tris tIdx i) := ⟨i0, hi0, hmm⟩
    have hHasT : triHas tris tIdx (edgeAt tris tIdx i) :=
      ⟨i, hi, uMatch_refl _⟩
    rcases inv.owner_snd k hk with ⟨hb, huniq⟩ |
      ⟨adj2, hsnd, hadj2, hadj2ne, i1, hi1, hs1⟩
    · have hTk : triHas tris tIdx (st.edges.getD k (0, 0)) :=
        ⟨i, hi, uMatch_symm hum⟩
      exact ho1t ((huniq tIdx ht hTk).symm)
    · by_cases hta : tIdx = adj2
      · rw [← hta] at hs1
        have hedge1 : uMatch (st.edges.getD k (0, 0))
            (edgeAt tris tIdx i1) = true :=
          inv.slot_edge _ _ _ ht hi1 hs1
        have hmm2 : uMatch (edgeAt tris tIdx i1) (edgeAt tris tIdx i) = true :=
          uMatch_trans (uMatch_symm hedge1) hum
        have hieq : i1 = i := edgeAt_slot_unique H ht hi1 hi hmm2
        rw [hieq] at hs1
        rw [hs1] at hslot
        omega
      · have hedge1 : uMatch (st.edges.getD k (0, 0))
            (edgeAt tris adj2 i1) = true :=
          inv.slot_edge _ _ _ hadj2 hi1 hs1
        have hHasA : triHas tris adj2 (edgeAt tris tIdx i) :=
          ⟨i1, hi1, uMatch_trans (uMatch_symm hedge1) hum⟩
        exact M tIdx (st.edge_to_tris.getD k (0, -1)).1 adj2
          (edgeAt tris tIdx i) ht ho1lt hadj2
          (fun he => ho1t he.symm) hta (fun he => hadj2ne he.symm)
          hHasT hHasO1 hHasA

/-- When the adjacency search fails, no other triangle shares the
edge. -/
theorem no_other_triangle {npts : Nat} {tris : List Tri}
    {ntt : List (List Nat)}
    (H : ∀ t ∈ tris, triOK npts t)
    (hnttl : ntt.length = npts)
    (hntt : ∀ u w : Nat,
      (w ∈ ntt.getD u [] ↔ w < tris.length ∧ u < npts ∧
        vertHas (tris.getD w (0, 0, 0)) u))
    {tIdx i : Nat} (ht : tIdx < tris.length) (hi : i < 3)
    (hfm : findMatch tris tIdx (edgeAt tris tIdx i)
      (nttAt ntt (edgeAt tris tIdx i).1) = none) :
    ∀ t2 : Nat, t2 < tris.length → t2 ≠ tIdx →
      ¬ triHas tris t2 (edgeAt tris tIdx i) := by
  rintro t2 h2 hne ⟨j, hj, hum⟩
  obtain ⟨e10, e11, -, -⟩ := edgeAt_bounds H ht hi
  have hvert : vertHas (tris.getD t2 (0, 0, 0))
      (edgeAt tris tIdx i).1.toNat := by
    have hv := uMatch_vert1 hj hum
    unfold vertHas
    omega
  have hmem : t2 ∈ nttAt ntt (edgeAt tris tIdx i).1 := by
    rw [nttAt_eq e10 (by omega)]
    exact (hntt _ t2).mpr ⟨h2, by omega, hvert⟩
  have hfei := findMatch_none hfm t2 hmem hne
  have hnone := findEdgeIndex_none hfei j hj
  rw [uMatch_symm hum] at hnone
  exact absurd hnone (by simp)

theorem processSlot_eq_skip {tris : List Tri} {ntt : List (List Nat)}
    {st : TopoState} {tIdx i : Nat}
    (h : ¬ slotGet (st.tri_to_edges.getD tIdx (-1, -1, -1)) i < 0) :
    processSlot tris ntt st tIdx i = st := by
  simp only [processSlot]
  rw [if_neg h]

theorem processSlot_eq_match {tris : List Tri} {ntt : List (List Nat)}
    {st : TopoState} {tIdx i adj j : Nat}
    (h : slotGet (st.tri_to_edges.getD tIdx (-1, -1, -1)) i < 0)
    (hfm : findMatch tris tIdx (edgeAt tris tIdx i)
      (nttAt ntt (edgeAt tris tIdx i).1) = some (adj, j)) :
    processSlot tris ntt st tIdx i =
      { edges := st.edges ++ [edgeAt tris tIdx i]
        edge_to_tris := st.edge_to_tris ++ [(tIdx, (adj : Int))]
        tri_to_edges := setSlot (setSlot st.tri_to_edges tIdx i
          st.edges.length) adj j st.edges.length } := by
  have hfm2 : findMatch tris tIdx
      ((get_tri_edges (tris.getD tIdx (0, 0, 0))).getD i (0, 0))
      (nttAt ntt (((get_tri_edges (tris.getD tIdx (0, 0, 0))).getD
        i (0, 0)).1)) = some (adj, j) := hfm
  simp only [processSlot]
  rw [if_pos h, hfm2]
  rfl

theorem processSlot_eq_nomatch {tris : List Tri} {ntt : List (List Nat)}
    {st : TopoState} {tIdx i : Nat}
    (h : slotGet (st.tri_to_edges.getD tIdx (-1, -1, -1)) i < 0)
    (hfm : findMatch tris tIdx (edgeAt tris tIdx i)
      (nttAt ntt (edgeAt tris tIdx i).1) = none) :
    processSlot tris ntt st tIdx i =
      { edges := st.edges ++ [edgeAt tris tIdx i]
        edge_to_tris := st.edge_to_tris ++ [(tIdx, -1)]
        tri_to_edges := setSlot st.tri_to_edges tIdx i st.edges.length } := by
  have hfm2 : findMatch tris tIdx
      ((get_tri_edges (tris.getD tIdx (0, 0, 0))).getD i (0, 0))
      (nttAt ntt (((get_tri_edges (tris.getD tIdx (0, 0, 0))).getD
        i (0, 0)).1)) = none := hfm
  simp only [processSlot]
  rw [if_pos h, hfm2]
  rfl

/-- One slot of the edge-numbering loop preserves the invariant,
assigns the processed slot, and never changes an assigned slot. -/
theorem processSlot_inv {npts : Nat} {tris : List Tri}
    {ntt : List (List Nat)} {st : TopoState}
    (H : ∀ t ∈ tris, triOK npts t) (M : Manifold tris)
    (hnttl : ntt.length = npts)
    (hntt : ∀ u w : Nat,
      (w ∈ ntt.getD u [] ↔ w < tris.length ∧ u < npts ∧
        vertHas (tris.getD w (0, 0, 0)) u))
    (inv : TopoInv tris st)
    {tIdx i : Nat} (ht : tIdx < tris.length) (hi : i < 3) :
    TopoInv tris (processSlot tris ntt st tIdx i) ∧
    (∃ k : Nat,
      tteSlot (processSlot tris ntt st tIdx i).tri_to_edges tIdx i = (k : Int)) ∧
    (∀ t2 i2 k : Nat, t2 < tris.length → i2 < 3 →
      tteSlot st.tri_to_edges t2 i2 = (k : Int) →
      tteSlot (processSlot tris ntt st tIdx i).tri_to_edges t2 i2 = (k : Int)) := by
  by_cases hguard : slotGet (st.tri_to_edges.getD tIdx (-1, -1, -1)) i < 0
  case neg =>
    rw [processSlot_eq_skip hguard]
    refine ⟨inv, ?_, fun t2 i2 k h2 hi2 hs => hs⟩
    rcases inv.slot_bound tIdx i ht hi with h | ⟨k, hk, -⟩
    · unfold tteSlot at h
      omega
    · exact ⟨k, hk⟩
  case pos =>
    have hm1 : tteSlot st.tri_to_edges tIdx i = -1 := by
      rcases inv.slot_bound tIdx i ht hi with h | ⟨k, hk, -⟩
      · exact h
      · unfold tteSlot at hk
        omega
    have hfresh := fresh_edge H M inv ht hi hm1
    have hTlen : st.tri_to_edges.length = tris.length := inv.tlen
    have hAlen : st.edge_to_tris.length = st.edges.length := inv.elen
    cases hfm : findMatch tris tIdx (edgeAt tris tIdx i)
        (nttAt ntt (edgeAt tris tIdx i).1) with
    | some aj =>
      obtain ⟨adj, j⟩ := aj
      rw [processSlot_eq_match hguard hfm]
      obtain ⟨hadjmem, hadjne, hfei⟩ := findMatch_some hfm
      obtain ⟨hj3, humj⟩ := findEdgeIndex_some hfei
      have hadjlt : adj < tris.length := by
        obtain ⟨e10, e11, -, -⟩ := edgeAt_bounds H ht hi
        rw [nttAt_eq e10 (by omega)] at hadjmem
        exact ((hntt _ adj).mp hadjmem).1
      have hadjslot : tteSlot st.tri_to_edges adj j = -1 := by
        rcases inv.slot_bound adj j hadjlt hj3 with h | ⟨k, hk, hklt⟩
        · exact h
        · exfalso
          have hse := inv.slot_edge adj j k hadjlt hj3 hk
          exact hfresh k hklt (uMatch_trans hse (uMatch_symm humj))
      have hslot_a : tteSlot (setSlot (setSlot st.tri_to_edges tIdx i
          st.edges.length) adj j st.edges.length) adj j
          = (st.edges.length : Int) :=
        tteSlot_setSlot_self _
          (by rw [setSlot_length, hTlen]; exact hadjlt) hj3 _
      have hslot_t : tteSlot (setSlot (setSlot st.tri_to_edges tIdx i
          st.edges.length) adj j st.edges.length) tIdx i
          = (st.edges.length : Int) := by
        rw [tteSlot_setSlot_ne _ (Or.inl hadjne) hj3 hi]
        exact tteSlot_setSlot_self _ (by rw [hTlen]; exact ht) hi _
      have hslot_keep : ∀ t2 i2 : Nat, i2 < 3 →
          ¬(t2 = tIdx ∧ i2 = i) → ¬(t2 = adj ∧ i2 = j) →
          tteSlot (setSlot (setSlot st.tri_to_edges tIdx i
            st.edges.length) adj j st.edges.length) t2 i2
            = tteSlot st.tri_to_edges t2 i2 := by
        intro t2 i2 hi2 hne1 hne2
        rw [tteSlot_setSlot_ne _ (by omega) hj3 hi2,
          tteSlot_setSlot_ne _ (by omega) hi hi2]
      have hpres : ∀ t2 i2 k : Nat, i2 < 3 →
          tteSlot st.tri_to_edges t2 i2 = (k : Int) →
          tteSlot (setSlot (setSlot st.tri_to_edges tIdx i
            st.edges.length) adj j st.edges.length) t2 i2 = (k : Int) := by
        intro t2 i2 k hi2 hs
        have hne1 : ¬(t2 = tIdx ∧ i2 = i) := by
          rintro ⟨rfl, rfl⟩
          rw [hm1] at hs
          omega
        have hne2 : ¬(t2 = adj ∧ i2 = j) := by
          rintro ⟨rfl, rfl⟩
          rw [hadjslot] at hs
          omega
        rw [hslot_keep t2 i2 hi2 hne1 hne2]
        exact hs
      have hE'k : ∀ k : Nat, k < st.edges.length →
          (st.edges ++ [edgeAt tris tIdx i]).getD k (0, 0)
            = st.edges.getD k (0, 0) :=
        fun k hk => getD_append_lt _ _ _ _ hk
      have hE'ne : (st.edges ++ [edgeAt tris tIdx i]).getD
          st.edges.length (0, 0) = edgeAt tris tIdx i := getD_append_len _ _ _
      have hA'k : ∀ k : Nat, k < st.edges.length →
          (st.edge_to_tris ++ [(tIdx, (adj : Int))]).getD k (0, -1)
            = st.edge_to_tris.getD k (0, -1) :=
        fun k hk => getD_append_lt _ _ _ _ (by omega)
      have hA'ne : (st.edge_to_tris ++ [(tIdx, (adj : Int))]).getD
          st.edges.length (0, -1) = (tIdx, (adj : Int)) := by
        rw [← hAlen]
        exact getD_append_len _ _ _
      refine ⟨⟨?_, ?_, ?_, ?_, ?_, ?_, ?_, ?_⟩,
        ⟨st.edges.length, hslot_t⟩, fun t2 i2 k h2 hi2 hs => hpres t2 i2 k hi2 hs⟩
      · simp [hAlen]
      · simp only [setSlot_length]
        exact hTlen
      · intro t2 i2 h2 hi2
        by_cases hc1 : t2 = adj ∧ i2 = j
        · obtain ⟨rfl, rfl⟩ := hc1
          right
          exact ⟨st.edges.length, hslot_a, by simp⟩
        by_cases hc2 : t2 = tIdx ∧ i2 = i
        · obtain ⟨rfl, rfl⟩ := hc2
          right
          exact ⟨st.edges.length, hslot_t, by simp⟩
        · rw [hslot_keep t2 i2 hi2 hc2 hc1]
          rcases inv.slot_bound t2 i2 h2 hi2 with h | ⟨k, hk, hklt⟩
          · left; exact h
          · right
            exact ⟨k, hk, by simp only [List.length_append,
              List.length_cons, List.length_nil]; omega⟩
      · intro t2 i2 k h2 hi2 hsk
        by_cases hc1 : t2 = adj ∧ i2 = j
        · obtain ⟨rfl, rfl⟩ := hc1
          rw [hslot_a] at hsk
          have hkeq : k = st.edges.length := by omega
          rw [hkeq, hE'ne]
          exact humj
        by_cases hc2 : t2 = tIdx ∧ i2 = i
        · obtain ⟨rfl, rfl⟩ := hc2
          rw [hslot_t] at hsk
          have hkeq : k = st.edges.length := by omega
          rw [hkeq, hE'ne]
          exact uMatch_refl _
        · rw [hslot_keep t2 i2 hi2 hc2 hc1] at hsk
          have hklt : k < st.edges.length := by
            rcases inv.slot_bound t2 i2 h2 hi2 with h | ⟨k2, hk2, hk2lt⟩
            · rw [h] at hsk; omega
            · rw [hk2] at hsk; omega
          rw [hE'k k hklt]
          exact inv.slot_edge t2 i2 k h2 hi2 hsk
      · intro k hk
        simp only [List.length_append, List.length_cons, List.length_nil] at hk
        by_cases hkne : k = st.edges.length
        · subst hkne
          rw [hA'ne]
          exact ⟨ht, i, hi, hslot_t⟩
        · have hklt : k < st.edges.length := by omega
          rw [hA'k k hklt]
          obtain ⟨ho1lt, i0, hi0, hs0⟩ := inv.owner_fst k hklt
          exact ⟨ho1lt, i0, hi0, hpres _ i0 k hi0 hs0⟩
      · intro k hk
        simp only [List.length_append, List.length_cons, List.length_nil] at hk
        by_cases hkne : k = st.edges.length
        · subst hkne
          rw [hA'ne]
          right
          exact ⟨adj, rfl, hadjlt, hadjne, j, hj3, hslot_a⟩
        · have hklt : k < st.edges.length := by omega
          rw [hA'k k hklt, hE'k k hklt]
          rcases inv.owner_snd k hklt with ⟨hb, huniq⟩ |
            ⟨adj2, hsnd, hadj2lt, hadj2ne, i1, hi1, hs1⟩
          · left
            exact ⟨hb, huniq⟩
          · right
            exact ⟨adj2, hsnd, hadj2lt, hadj2ne, i1, hi1,
              hpres _ i1 k hi1 hs1⟩
      · intro t2 i2 k h2 hi2 hsk
        by_cases hc1 : t2 = adj ∧ i2 = j
        · obtain ⟨rfl, rfl⟩ := hc1
          rw [hslot_a] at hsk
          have hkeq : k = st.edges.length := by omega
          rw [hkeq, hA'ne]
          right
          rfl
        by_cases hc2 : t2 = tIdx ∧ i2 = i
        · obtain ⟨rfl, rfl⟩ := hc2
          rw [hslot_t] at hsk
          have hkeq : k = st.edges.length := by omega
          rw [hkeq, hA'ne]
          left
          rfl
        · rw [hslot_keep t2 i2 hi2 hc2 hc1] at hsk
          have hklt : k < st.edges.length := by
            rcases inv.slot_bound t2 i2 h2 hi2 with h | ⟨k2, hk2, hk2lt⟩
            · rw [h] at hsk; omega
            · rw [hk2] at hsk; omega
          rw [hA'k k hklt]
          exact inv.slot_owner t2 i2 k h2 hi2 hsk
      · intro k k2 hk hk2 hkk hum
        simp only [List.length_append, List.length_cons, List.length_nil]
          at hk hk2
        by_cases hk1 : k = st.edges.length
        · subst hk1
          have hk2lt : k2 < st.edges.length := by omega
          rw [hE'ne, hE'k k2 hk2lt] at hum
          exact hfresh k2 hk2lt (uMatch_symm hum)
        by_cases hk21 : k2 = st.edges.length
        · subst hk21
          have hklt : k < st.edges.length := by omega
          rw [hE'ne, hE'k k hklt] at hum
          exact hfresh k hklt hum
        · have hklt : k < st.edges.length := by omega
          have hk2lt : k2 < st.edges.length := by omega
          rw [hE'k k hklt, hE'k k2 hk2lt] at hum
          exact inv.edges_uniq k k2 hklt hk2lt hkk hum
    | none =>
      rw [processSlot_eq_nomatch hguard hfm]
      have hnosh := no_other_triangle H hnttl hntt ht hi hfm
      have hslot_t : tteSlot (setSlot st.tri_to_edges tIdx i
          st.edges.length) tIdx i = (st.edges.length : Int) :=
        tteSlot_setSlot_self _ (by rw [hTlen]; exact ht) hi _
      have hslot_keep : ∀ t2 i2 : Nat, i2 < 3 → ¬(t2 = tIdx ∧ i2 = i) →
          tteSlot (setSlot st.tri_to_edges tIdx i st.edges.length) t2 i2
            = tteSlot st.tri_to_edges t2 i2 := by
        intro t2 i2 hi2 hne1
        rw [tteSlot_setSlot_ne _ (by omega) hi hi2]
      have hpres : ∀ t2 i2 k : Nat, i2 < 3 →
          tteSlot st.tri_to_edges t2 i2 = (k : Int) →
          tteSlot (setSlot st.tri_to_edges tIdx i st.edges.length) t2 i2
            = (k : Int) := by
        intro t2 i2 k hi2 hs
        have hne1 : ¬(t2 = tIdx ∧ i2 = i) := by
          rintro ⟨rfl, rfl⟩
          rw [hm1] at hs
          omega
        rw [hslot_keep t2 i2 hi2 hne1]
        exact hs
      have hE'k : ∀ k : Nat, k < st.edges.length →
          (st.edges ++ [edgeAt tris tIdx i]).getD k (0, 0)
            = st.edges.getD k (0, 0) :=
        fun k hk => getD_append_lt _ _ _ _ hk
      have hE'ne : (st.edges ++ [edgeAt tris tIdx i]).getD
          st.edges.length (0, 0) = edgeAt tris tIdx i := getD_append_len _ _ _
      have hA'k : ∀ k : Nat, k < st.edges.length →
          (st.edge_to_tris ++ [(tIdx, -1)]).getD k (0, -1)
            = st.edge_to_tris.getD k (0, -1) :=
        fun k hk => getD_append_lt _ _ _ _ (by omega)
      have hA'ne : (st.edge_to_tris ++ [(tIdx, -1)]).getD
          st.edges.length (0, -1) = (tIdx, -1) := by
        rw [← hAlen]
        exact getD_append_len _ _ _
      refine ⟨⟨?_, ?_, ?_, ?_, ?_, ?_, ?_, ?_⟩,
        ⟨st.edges.length, hslot_t⟩, fun t2 i2 k h2 hi2 hs => hpres t2 i2 k hi2 hs⟩
      · simp [hAlen]
      · simp only [setSlot_length]
        exact hTlen
      · intro t2 i2 h2 hi2
        by_cases hc2 : t2 = tIdx ∧ i2 = i
        · obtain ⟨rfl, rfl⟩ := hc2
          right
          exact ⟨st.edges.length, hslot_t, by simp⟩
        · rw [hslot_keep t2 i2 hi2 hc2]
          rcases inv.slot_bound t2 i2 h2 hi2 with h | ⟨k, hk, hklt⟩
          · left; exact h
          · right
            exact ⟨k, hk, by simp only [List.length_append,
              List.length_cons, List.length_nil]; omega⟩
      · intro t2 i2 k h2 hi2 hsk
        by_cases hc2 : t2 = tIdx ∧ i2 = i
        · obtain ⟨rfl, rfl⟩ := hc2
          rw [hslot_t] at hsk
          have hkeq : k = st.edges.length := by omega
          rw [hkeq, hE'ne]
          exact uMatch_refl _
        · rw [hslot_keep t2 i2 hi2 hc2] at hsk
          have hklt : k < st.edges.length := by
            rcases inv.slot_bound t2 i2 h2 hi2 with h | ⟨k2, hk2, hk2lt⟩
            · rw [h] at hsk; omega
            · rw [hk2] at hsk; omega
          rw [hE'k k hklt]
          exact inv.slot_edge t2 i2 k h2 hi2 hsk
      · intro k hk
        simp only [List.length_append, List.length_cons, List.length_nil] at hk
        by_cases hkne : k = st.edges.length
        · subst hkne
          rw [hA'ne]
          exact ⟨ht, i, hi, hslot_t⟩
        · have hklt : k < st.edges.length := by omega
          rw [hA'k k hklt]
          obtain ⟨ho1lt, i0, hi0, hs0⟩ := inv.owner_fst k hklt
          exact ⟨ho1lt, i0, hi0, hpres _ i0 k hi0 hs0⟩
      · intro k hk
        simp only [List.length_append, List.length_cons, List.length_nil] at hk
        by_cases hkne : k = st.edges.length
        · subst hkne
          rw [hA'ne, hE'ne]
          left
          refine ⟨rfl, ?_⟩
          intro t2 h2 hhas
          by_cases h2t : t2 = tIdx
          · exact h2t
          · exact absurd hhas (hnosh t2 h2 h2t)
        · have hklt : k < st.edges.length := by omega
          rw [hA'k k hklt, hE'k k hklt]
          rcases inv.owner_snd k hklt with ⟨hb, huniq⟩ |
            ⟨adj2, hsnd, hadj2lt, hadj2ne, i1, hi1, hs1⟩
          · left
            exact ⟨hb, huniq⟩
          · right
            exact ⟨adj2, hsnd, hadj2lt, hadj2ne, i1, hi1,
              hpres _ i1 k hi1 hs1⟩
      · intro t2 i2 k h2 hi2 hsk
        by_cases hc2 : t2 = tIdx ∧ i2 = i
        · obtain ⟨rfl, rfl⟩ := hc2
          rw [hslot_t] at hsk
          have hkeq : k = st.edges.length := by omega
          rw [hkeq, hA'ne]
          left
          rfl
        · rw [hslot_keep t2 i2 hi2 hc2] at hsk
          have hklt : k < st.edges.length := by
            rcases inv.slot_bound t2 i2 h2 hi2 with h | ⟨k2, hk2, hk2lt⟩
            · rw [h] at hsk; omega
            · rw [hk2] at hsk; omega
          rw [hA'k k hklt]
          exact inv.slot_owner t2 i2 k h2 hi2 hsk
      · intro k k2 hk hk2 hkk hum
        simp only [List.length_append, List.length_cons, List.length_nil]
          at hk hk2
        by_cases hk1 : k = st.edges.length
        · subst hk1
          have hk2lt : k2 < st.edges.length := by omega
          rw [hE'ne, hE'k k2 hk2lt] at hum
          exact hfresh k2 hk2lt (uMatch_symm hum)
        by_cases hk21 : k2 = st.edges.length
        · subst hk21
          have hklt : k < st.edges.length := by omega
          rw [hE'ne, hE'k k hklt] at hum
          exact hfresh k hklt hum
        · have hklt : k < st.edges.length := by omega
          have hk2lt : k2 < st.edges.length := by omega
          rw [hE'k k hklt, hE'k k2 hk2lt] at hum
          exact inv.edges_uniq k k2 hklt hk2lt hkk hum

theorem foldl_bind_eq {α β σ : Type*} (l : List α) (f : α → List β)
    (g : σ → β → σ) (init : σ) :
    (l.bind f).foldl g init =
      l.foldl (fun acc a => (f a).foldl g acc) init := by
  induction l generalizing init with
  | nil => rfl
  | cons a l ih => simp [List.foldl_append, ih]

/-- Folding the slot list preserves the invariant, assigns every
processed slot, and keeps previously assigned slots. -/
theorem foldSlots_inv {npts : Nat} {tris : List Tri} {ntt : List (List Nat)}
    (H : ∀ t ∈ tris, triOK npts t) (M : Manifold tris)
    (hnttl : ntt.length = npts)
    (hntt : ∀ u w : Nat,
      (w ∈ ntt.getD u [] ↔ w < tris.length ∧ u < npts ∧
        vertHas (tris.getD w (0, 0, 0)) u)) :
    ∀ (L : List (Nat × Nat)), (∀ p ∈ L, p.1 < tris.length ∧ p.2 < 3) →
    ∀ st : TopoState, TopoInv tris st →
      TopoInv tris
        (L.foldl (fun s p => processSlot tris ntt s p.1 p.2) st) ∧
      (∀ p ∈ L, ∃ k : Nat,
        tteSlot (L.foldl (fun s p => processSlot tris ntt s p.1 p.2)
          st).tri_to_edges p.1 p.2 = (k : Int)) ∧
      (∀ t2 i2 k : Nat, t2 < tris.length → i2 < 3 →
        tteSlot st.tri_to_edges t2 i2 = (k : Int) →
        tteSlot (L.foldl (fun s p => processSlot tris ntt s p.1 p.2)
          st).tri_to_edges t2 i2 = (k : Int)) := by
  intro L
  induction L with
  | nil =>
    intro hv st inv
    exact ⟨inv, by simp, fun _ _ _ _ _ hs => hs⟩
  | cons p L ih =>
    intro hv st inv
    obtain ⟨hp1, hp2⟩ := hv p (by simp)
    obtain ⟨inv1, ⟨k0, hk0⟩, pres1⟩ :=
      processSlot_inv H M hnttl hntt inv hp1 hp2
    obtain ⟨inv2, assigned2, pres2⟩ :=
      ih (fun q hq => hv q (List.mem_cons_of_mem _ hq)) _ inv1
    refine ⟨inv2, ?_, ?_⟩
    · intro q hq
      rcases List.mem_cons.mp hq with rfl | hq2
      · exact ⟨k0, pres2 q.1 q.2 k0 hp1 hp2 hk0⟩
      · exact assigned2 q hq2
    · intro t2 i2 k h2 hi2 hs
      exact pres2 t2 i2 k h2 hi2 (pres1 t2 i2 k h2 hi2 hs)

/-- The invariant holds for the initial state of the loop. -/
theorem initial_topo_inv (tris : List Tri) :
    TopoInv tris ⟨[], [], tris.map (fun _ => (-1, -1, -1))⟩ := by
  have hslot : ∀ t i : Nat, t < tris.length → i < 3 →
      tteSlot (tris.map (fun _ => ((-1 : Int), (-1 : Int), (-1 : Int)))) t i
        = -1 := by
    intro t i ht hi
    unfold tteSlot
    rw [getD_map_const _ _ _ _ ht]
    interval_cases i <;> rfl
  refine ⟨rfl, by simp, ?_, ?_, ?_, ?_, ?_, ?_⟩
  · intro t i ht hi
    left
    exact hslot t i ht hi
  · intro t i k ht hi hsk
    rw [hslot t i ht hi] at hsk
    omega
  · intro k hk
    simp at hk
  · intro k hk
    simp at hk
  · intro t i k ht hi hsk
    rw [hslot t i ht hi] at hsk
    omega
  · intro k k2 hk
    simp at hk

theorem slot_lt_of_inv {tris : List Tri} {st : TopoState}
    (inv : TopoInv tris st) {t i k : Nat}
    (ht : t < tris.length) (hi : i < 3)
    (hk : tteSlot st.tri_to_edges t i = (k : Int)) : k < st.edges.length := by
  rcases inv.slot_bound t i ht hi with h | ⟨k2, hk2, hk2lt⟩
  · rw [h] at hk
    omega
  · rw [hk2] at hk
    omega

/-- C1: for a well-formed manifold mesh the topology builder succeeds
and its output satisfies the claimed invariants: every geometric edge
of the mesh occurs exactly once in the edge table (and every table
entry is an edge of some triangle); the triangle-to-edge and
edge-to-triangle maps are mutually consistent (the edge id stored for a
triangle slot points to a matching table entry whose owner pair
contains that triangle); and every edge has exactly one owning triangle
(second owner -1) or exactly two (a distinct valid second owner). -/
theorem mesh_topology_invariants (npts : Nat) (tris : List Tri)
    (H : ∀ t ∈ tris, triOK npts t) (M : Manifold tris) :
    ∃ es tte ett, get_planar_tri_edges npts tris = some (es, tte, ett) ∧
      (∀ t i : Nat, t < tris.length → i < 3 →
        ∃! k : Nat, k < es.length ∧
          uMatch (es.getD k (0, 0)) (edgeAt tris t i) = true) ∧
      (∀ k : Nat, k < es.length →
        ∃ t : Nat, t < tris.length ∧ triHas tris t (es.getD k (0, 0))) ∧
      (∀ t i : Nat, t < tris.length → i < 3 →
        ∃ k : Nat, tteSlot tte t i = (k : Int) ∧ k < es.length ∧
          uMatch (es.getD k (0, 0)) (edgeAt tris t i) = true ∧
          ((ett.getD k (0, -1)).1 = t ∨
           (ett.getD k (0, -1)).2 = (t : Int))) ∧
      (∀ k : Nat, k < es.length →
        (ett.getD k (0, -1)).1 < tris.length ∧
        ((ett.getD k (0, -1)).2 = -1 ∨
         ∃ adj : Nat, (ett.getD k (0, -1)).2 = (adj : Int) ∧
           adj < tris.length ∧ adj ≠ (ett.getD k (0, -1)).1)) := by
  obtain ⟨ntt, hn, hnl, hnmem⟩ := node_to_tris_spec H
  have inner : ∀ (st : TopoState) (t : Nat),
      ((List.range 3).map (fun i => (t, i))).foldl
        (fun s p => processSlot tris ntt s p.1 p.2) st
        = (List.range 3).foldl (fun s i => processSlot tris ntt s t i) st := by
    intro st t
    rw [List.foldl_map]
  have hfoldeq :
      ((List.range tris.length).bind
        (fun t => (List.range 3).map (fun i => (t, i)))).foldl
        (fun s p => processSlot tris ntt s p.1 p.2)
        ⟨[], [], tris.map (fun _ => (-1, -1, -1))⟩
      = (List.range tris.length).foldl
          (fun st t => (List.range 3).foldl
            (fun st i => processSlot tris ntt st t i) st)
          ⟨[], [], tris.map (fun _ => (-1, -1, -1))⟩ := by
    rw [foldl_bind_eq]
    simp only [inner]
  have hmem_slots : ∀ p ∈ (List.range tris.length).bind
      (fun t => (List.range 3).map (fun i => (t, i))),
      p.1 < tris.length ∧ p.2 < 3 := by
    intro p hp
    simp only [List.mem_bind, List.mem_map, List.mem_range] at hp
    obtain ⟨t, ht, i, hi, rfl⟩ := hp
    exact ⟨ht, hi⟩
  have hin_slots : ∀ t i : Nat, t < tris.length → i < 3 →
      (t, i) ∈ (List.range tris.length).bind
        (fun t => (List.range 3).map (fun i => (t, i))) := by
    intro t i ht hi
    simp only [List.mem_bind, List.mem_map, List.mem_range]
    exact ⟨t, ht, i, hi, rfl⟩
  obtain ⟨invF, totalF, -⟩ :=
    foldSlots_inv H M hnl hnmem _ hmem_slots _ (initial_topo_inv tris)
  rw [hfoldeq] at invF totalF
  have hrun : get_planar_tri_edges npts tris = some
      (((List.range tris.length).foldl
        (fun st t => (List.range 3).foldl
          (fun st i => processSlot tris ntt st t i) st)
        ⟨[], [], tris.map (fun _ => (-1, -1, -1))⟩).edges,
       ((List.range tris.length).foldl
        (fun st t => (List.range 3).foldl
          (fun st i => processSlot tris ntt st t i) st)
        ⟨[], [], tris.map (fun _ => (-1, -1, -1))⟩).tri_to_edges,
       ((List.range tris.length).foldl
        (fun st t => (List.range 3).foldl
          (fun st i => processSlot tris ntt st t i) st)
        ⟨[], [], tris.map (fun _ => (-1, -1, -1))⟩).edge_to_tris) := by
    unfold get_planar_tri_edges
    rw [hn]
  refine ⟨_, _, _, hrun, ?_, ?_, ?_, ?_⟩
  · -- every geometric edge exactly once
    intro t i ht hi
    obtain ⟨k, hk⟩ := totalF (t, i) (hin_slots t i ht hi)
    have hklt := slot_lt_of_inv invF ht hi hk
    refine ⟨k, ⟨hklt, invF.slot_edge t i k ht hi hk⟩, ?_⟩
    rintro k2 ⟨hk2lt, hum2⟩
    by_contra hne
    exact invF.edges_uniq k2 k hk2lt hklt hne
      (uMatch_trans hum2 (uMatch_symm (invF.slot_edge t i k ht hi hk)))
  · -- every table entry is an edge of some triangle
    intro k hk
    obtain ⟨ho1lt, i0, hi0, hs0⟩ := invF.owner_fst k hk
    exact ⟨_, ho1lt, i0, hi0, uMatch_symm (invF.slot_edge _ i0 k ho1lt hi0 hs0)⟩
  · -- mutual consistency
    intro t i ht hi
    obtain ⟨k, hk⟩ := totalF (t, i) (hin_slots t i ht hi)
    have hklt := slot_lt_of_inv invF ht hi hk
    exact ⟨k, hk, hklt, invF.slot_edge t i k ht hi hk,
      invF.slot_owner t i k ht hi hk⟩
  · -- one or two owners
    intro k hk
    refine ⟨(invF.owner_fst k hk).1, ?_⟩
    rcases invF.owner_snd k hk with ⟨hb, -⟩ |
      ⟨adj, hsnd, hadjlt, hadjne, -⟩
    · left; exact hb
    · right; exact ⟨adj, hsnd, hadjlt, hadjne⟩

/-- Witness for C1 on the two-triangle square mesh. -/
theorem mesh_topology_invariants_witness :
    ∃ es tte ett,
      get_planar_tri_edges 4 [(0, 1, 2), (0, 2, 3)] = some (es, tte, ett) ∧
      (∀ t i : Nat, t < ([(0, 1, 2), (0, 2, 3)] : List Tri).length → i < 3 →
        ∃! k : Nat, k < es.length ∧
          uMatch (es.getD k (0, 0))
            (edgeAt [(0, 1, 2), (0, 2, 3)] t i) = true) ∧
      (∀ k : Nat, k < es.length →
        ∃ t : Nat, t < ([(0, 1, 2), (0, 2, 3)] : List Tri).length ∧
          triHas [(0, 1, 2), (0, 2, 3)] t (es.getD k (0, 0))) ∧
      (∀ t i : Nat, t < ([(0, 1, 2), (0, 2, 3)] : List Tri).length → i < 3 →
        ∃ k : Nat, tteSlot tte t i = (k : Int) ∧ k < es.length ∧
          uMatch (es.getD k (0, 0))
            (edgeAt [(0, 1, 2), (0, 2, 3)] t i) = true ∧
          ((ett.getD k (0, -1)).1 = t ∨
           (ett.getD k (0, -1)).2 = (t : Int))) ∧
      (∀ k : Nat, k < es.length →
        (ett.getD k (0, -1)).1 < ([(0, 1, 2), (0, 2, 3)] : List Tri).length ∧
        ((ett.getD k (0, -1)).2 = -1 ∨
         ∃ adj : Nat, (ett.getD k (0, -1)).2 = (adj : Int) ∧
           adj < ([(0, 1, 2), (0, 2, 3)] : List Tri).length ∧
           adj ≠ (ett.getD k (0, -1)).1)) :=
  mesh_topology_invariants 4 [(0, 1, 2), (0, 2, 3)]
    (by
      intro t ht
      fin_cases ht <;> (unfold triOK; decide))
    (by
      intro t1 t2 t3 e h1 h2 h3 h12 h13 h23 hh1 hh2 hh3
      simp only [List.length_cons, List.length_nil] at h1 h2 h3
      omega)

end Tikzplots
